import Mathlib

/-!
# Verification of the fail0verflow ECDSA nonce-reuse toolkit

This development embeds the two Python modules of the repository, `ec_utils.py`
(elliptic-curve arithmetic over the fixed 160-bit PS3 VSH curve) and `attack.py`
(ECDSA signing/verification and the nonce-reuse attack), as executable Lean
definitions, and proves the specification claims about them.

Modelling conventions:
* Python integers are `ℤ`; `x % m` and `x / m` on `ℤ` in Lean agree with
  Python's `%` and `//` for a positive modulus/divisor, which is the only way
  the program uses them.
* Python functions that can raise are modelled in `Except String`; the string
  is the exception message (interpolated values of f-strings are dropped).
* Python `while` loops and the recursive extended Euclid are modelled with an
  explicit fuel argument so that every definition reduces in the kernel; the
  fuel is provably irrelevant as long as it exceeds the number of iterations
  the Python code performs.
* SHA-1 is outside the core (the spec treats the digest as an opaque integer),
  so the signing/verification functions are stated over the digest `e`
  directly, exactly as the spec's formulas do.
-/

set_option maxRecDepth 10000

deriving instance DecidableEq for Except

/-! ## Fast modular exponentiation (proof infrastructure for primality) -/

/-- Binary modular exponentiation with explicit fuel. -/
def powModFuel : ℕ → ℕ → ℕ → ℕ → ℕ
  | _, _, 0, m => 1 % m
  | 0, _, _, m => 1 % m
  | fuel+1, a, e, m =>
    let h := powModFuel fuel a (e / 2) m
    let h2 := h * h % m
    if e % 2 = 1 then h2 * a % m else h2

/-- `a ^ e % m`, computed by binary exponentiation. -/
def powMod (a e m : ℕ) : ℕ := powModFuel e a e m

theorem powModFuel_correct : ∀ fuel a e m, e ≤ fuel → powModFuel fuel a e m = a ^ e % m := by
  intro fuel
  induction fuel with
  | zero =>
    intro a e m he
    interval_cases e
    simp [powModFuel]
  | succ fuel ih =>
    intro a e m he
    rcases Nat.eq_zero_or_pos e with he0 | he0
    · subst he0; simp [powModFuel]
    · obtain ⟨e', rfl⟩ : ∃ e', e = e' + 1 := ⟨e - 1, by omega⟩
      set e := e' + 1 with he
      have hrec : e / 2 ≤ fuel := by
        have h1 : e / 2 < e := Nat.div_lt_self he0 (by norm_num)
        omega
      show (let h := powModFuel fuel a (e / 2) m
            let h2 := h * h % m
            if e % 2 = 1 then h2 * a % m else h2) = a ^ e % m
      simp only [ih a (e / 2) m hrec]
      have hsplit : a ^ e = (a ^ (e / 2)) * (a ^ (e / 2)) * a ^ (e % 2) := by
        rw [← pow_add, ← pow_add]
        congr 1
        omega
      rcases Nat.mod_two_eq_zero_or_one e with hpar | hpar
      · simp only [hpar]
        norm_num
        rw [hsplit, hpar, pow_zero, mul_one, Nat.mul_mod]
      · simp only [hpar]
        norm_num
        rw [hsplit, hpar, pow_one, Nat.mul_mod (a ^ (e / 2) * a ^ (e / 2)) a,
          Nat.mul_mod (a ^ (e / 2)) (a ^ (e / 2))]

theorem powMod_correct (a e m : ℕ) : powMod a e m = a ^ e % m :=
  powModFuel_correct e a e m le_rfl

/-! ## A Pratt-style primality certificate checker

`pratt_step` reduces primality of `p` to: a list `L` of primes covering every
prime factor of `p - 1`, and a witness `a` of order `p - 1` in `ZMod p`,
checked by kernel computation with `powMod`. -/

theorem powMod_zmod_cast (a e m : ℕ) : ((a : ZMod m)) ^ e = ((powMod a e m : ℕ) : ZMod m) := by
  rw [powMod_correct, ZMod.natCast_mod, Nat.cast_pow]

theorem pratt_step (p a : ℕ) (L : List ℕ)
    (hL : ∀ q ∈ L, Nat.Prime q)
    (hrad : (p - 1) ∣ L.prod ^ 160)
    (ha : powMod a (p - 1) p % p = 1 % p)
    (hd : ∀ q ∈ L, powMod a ((p - 1) / q) p % p ≠ 1 % p) : Nat.Prime p := by
  have hp1 : p - 1 ≠ 0 := by
    intro h0
    rw [h0] at hrad
    have : L.prod ^ 160 = 0 := Nat.eq_zero_of_zero_dvd hrad
    have : L.prod = 0 := by
      rcases pow_eq_zero_iff (n := 160) (by norm_num) |>.mp this with h
      exact h
    have : (0 : ℕ) ∈ L := List.prod_eq_zero_iff.mp this
    exact Nat.not_prime_zero (hL 0 this)
  refine lucas_primality p (a : ZMod p) ?_ ?_
  · rw [powMod_zmod_cast]
    have : ((powMod a (p - 1) p : ℕ) : ZMod p) = ((1 : ℕ) : ZMod p) := by
      rw [ZMod.natCast_eq_natCast_iff']
      simpa using ha
    simpa using this
  · intro q hq hqdvd
    have hqL : q ∈ L := by
      have h1 : q ∣ L.prod ^ 160 := hqdvd.trans hrad
      have h2 : q ∣ L.prod := hq.dvd_of_dvd_pow h1
      obtain ⟨r, hrL, hqr⟩ := (hq.prime.dvd_prod_iff).mp h2
      have : q = r := (Nat.prime_dvd_prime_iff_eq hq (hL r hrL)).mp hqr
      exact this ▸ hrL
    intro hcon
    apply hd q hqL
    rw [powMod_zmod_cast] at hcon
    have : ((powMod a ((p - 1) / q) p : ℕ) : ZMod p) = ((1 : ℕ) : ZMod p) := by simpa using hcon
    rw [ZMod.natCast_eq_natCast_iff'] at this
    simpa using this
/-! Primality of the small primes appearing in the certificates. -/

theorem prime_2 : Nat.Prime 2 := by norm_num

theorem prime_3 : Nat.Prime 3 := by norm_num

theorem prime_5 : Nat.Prime 5 := by norm_num

theorem prime_7 : Nat.Prime 7 := by norm_num

theorem prime_11 : Nat.Prime 11 := by norm_num

theorem prime_17 : Nat.Prime 17 := by norm_num

theorem prime_19 : Nat.Prime 19 := by norm_num

theorem prime_31 : Nat.Prime 31 := by norm_num

theorem prime_41 : Nat.Prime 41 := by norm_num

theorem prime_43 : Nat.Prime 43 := by norm_num

theorem prime_53 : Nat.Prime 53 := by norm_num

theorem prime_79 : Nat.Prime 79 := by norm_num

theorem prime_149 : Nat.Prime 149 := by norm_num

theorem prime_157 : Nat.Prime 157 := by norm_num

theorem prime_197 : Nat.Prime 197 := by norm_num

theorem prime_257 : Nat.Prime 257 := by norm_num

theorem prime_641 : Nat.Prime 641 := by norm_num

theorem prime_983 : Nat.Prime 983 := by norm_num

theorem prime_1993 : Nat.Prime 1993 := by norm_num

theorem prime_2113 : Nat.Prime 2113 := by norm_num

theorem prime_2281 : Nat.Prime 2281 := by norm_num

theorem prime_29 : Nat.Prime 29 := by norm_num

theorem prime_199 : Nat.Prime 199 := by norm_num

theorem prime_17449 : Nat.Prime 17449 := by norm_num

theorem prime_414991 : Nat.Prime 414991 := by norm_num

theorem prime_30293 : Nat.Prime 30293 := by norm_num

theorem prime_37039 : Nat.Prime 37039 := by norm_num

theorem prime_59957 : Nat.Prime 59957 := by norm_num

theorem prime_65537 : Nat.Prime 65537 := by norm_num

theorem prime_174763 : Nat.Prime 174763 := by norm_num

theorem prime_2489947 : Nat.Prime 2489947 := by
  refine pratt_step 2489947 3 [2, 3, 414991] ?_ (by decide) (by decide) (by decide)
  intro q hq
  fin_cases hq
  · exact prime_2
  · exact prime_3
  · exact prime_414991

theorem prime_6700417 : Nat.Prime 6700417 := by
  refine pratt_step 6700417 5 [2, 3, 17449] ?_ (by decide) (by decide) (by decide)
  intro q hq
  fin_cases hq
  · exact prime_2
  · exact prime_3
  · exact prime_17449

theorem prime_34256657 : Nat.Prime 34256657 := by
  refine pratt_step 34256657 3 [2, 7, 29, 53, 199] ?_ (by decide) (by decide) (by decide)
  intro q hq
  fin_cases hq
  · exact prime_2
  · exact prime_7
  · exact prime_29
  · exact prime_53
  · exact prime_199


theorem prime_1038625799 : Nat.Prime 1038625799 := by
  refine pratt_step 1038625799 7 [2, 7, 31, 79, 30293] ?_ (by decide) (by decide) (by decide)
  intro q hq
  fin_cases hq
  · exact prime_2
  · exact prime_7
  · exact prime_31
  · exact prime_79
  · exact prime_30293

theorem prime_88114244437 : Nat.Prime 88114244437 := by
  refine pratt_step 88114244437 2 [2, 3, 983, 2489947] ?_ (by decide) (by decide) (by decide)
  intro q hq
  fin_cases hq
  · exact prime_2
  · exact prime_3
  · exact prime_983
  · exact prime_2489947

theorem prime_3011347479614249131 : Nat.Prime 3011347479614249131 := by
  refine pratt_step 3011347479614249131 11 [2, 3, 5, 19, 59957, 88114244437] ?_ (by decide) (by decide) (by decide)
  intro q hq
  fin_cases hq
  · exact prime_2
  · exact prime_3
  · exact prime_5
  · exact prime_19
  · exact prime_59957
  · exact prime_88114244437

theorem prime_13697397037213 : Nat.Prime 13697397037213 := by
  refine pratt_step 13697397037213 6 [2, 3, 7, 157, 1038625799] ?_ (by decide) (by decide) (by decide)
  intro q hq
  fin_cases hq
  · exact prime_2
  · exact prime_3
  · exact prime_7
  · exact prime_157
  · exact prime_1038625799

theorem prime_56816908998846424554433 : Nat.Prime 56816908998846424554433 := by
  refine pratt_step 56816908998846424554433 5 [2, 3, 41, 43, 79, 149, 197, 2113, 34256657] ?_ (by decide) (by decide) (by decide)
  intro q hq
  fin_cases hq
  · exact prime_2
  · exact prime_3
  · exact prime_41
  · exact prime_43
  · exact prime_79
  · exact prime_149
  · exact prime_197
  · exact prime_2113
  · exact prime_34256657

theorem prime_1979852127944312719080696581557973142577 : Nat.Prime 1979852127944312719080696581557973142577 := by
  refine pratt_step 1979852127944312719080696581557973142577 5 [2, 3, 53, 13697397037213, 56816908998846424554433] ?_ (by decide) (by decide) (by decide)
  intro q hq
  fin_cases hq
  · exact prime_2
  · exact prime_3
  · exact prime_53
  · exact prime_13697397037213
  · exact prime_56816908998846424554433

theorem prime_Nnat : Nat.Prime 1461501637330902918124456319238612540852236394791 := by
  refine pratt_step 1461501637330902918124456319238612540852236394791 7 [2, 5, 1993, 37039, 1979852127944312719080696581557973142577] ?_ (by decide) (by decide) (by decide)
  intro q hq
  fin_cases hq
  · exact prime_2
  · exact prime_5
  · exact prime_1993
  · exact prime_37039
  · exact prime_1979852127944312719080696581557973142577

theorem prime_Pnat : Nat.Prime 1461501637330902918124456670238912170209807695871 := by
  refine pratt_step 1461501637330902918124456670238912170209807695871 3 [2, 3, 5, 11, 17, 257, 641, 2281, 65537, 174763, 6700417, 3011347479614249131] ?_ (by decide) (by decide) (by decide)
  intro q hq
  fin_cases hq
  · exact prime_2
  · exact prime_3
  · exact prime_5
  · exact prime_11
  · exact prime_17
  · exact prime_257
  · exact prime_641
  · exact prime_2281
  · exact prime_65537
  · exact prime_174763
  · exact prime_6700417
  · exact prime_3011347479614249131

/-! ## The embedded program: `ec_utils.py`

Curve parameters of the PS3 VSH curve, exactly as in the source. -/

namespace ec_utils

def P : ℤ := 0xFFFFFFFFFFFFFFFF00000001FFFFFFFFFFFFFFFF

def A : ℤ := 0xFFFFFFFFFFFFFFFF00000001FFFFFFFFFFFFFFFC

def B : ℤ := 0xA68BEDC33418029C1D3CE33B9A321FCCBB9E0F0B

def N : ℤ := 0xFFFFFFFFFFFFFFFEFFFFB5AE3C523E63944F2127

def GX : ℤ := 0x128EC4256487FD8FDF64E2437BC0A1F6D5AFDE2C

def GY : ℤ := 0x5958557EB1DB001260425524DBC379D5AC5F4ADF

/-- The natural-number value of the prime modulus `P`. -/
def Pnat : ℕ := 0xFFFFFFFFFFFFFFFF00000001FFFFFFFFFFFFFFFF

/-- The natural-number value of the group order `N`. -/
def Nnat : ℕ := 0xFFFFFFFFFFFFFFFEFFFFB5AE3C523E63944F2127

/-- `_extended_gcd` from the source is a recursive Python function
`_extended_gcd(a, b) = if a == 0 then (b, 0, 1) else ((g,x1,y1) := _extended_gcd(b % a, a); (g, y1 - (b // a)*x1, x1))`.
Every call in the program has `a >= 0` and `b >= 0` (`mod_inverse` first reduces a
negative `a` into `[0, m)`), so it is embedded on `ℕ` arguments, with fuel
making the recursion structural; `extended_gcd_rec` below recovers the Python
recurrence. The Bézout coefficients are genuine integers. -/
def egcdFuel : ℕ → ℕ → ℕ → ℤ × ℤ × ℤ
  | _, 0, b => ((b : ℤ), 0, 1)
  | 0, _, b => ((b : ℤ), 0, 1)
  | fuel+1, a, b =>
    let r := egcdFuel fuel (b % a) a
    (r.1, r.2.2 - ((b / a : ℕ) : ℤ) * r.2.1, r.2.1)

/-- The embedding of `_extended_gcd` (see `egcdFuel`). -/
def extended_gcd (a b : ℕ) : ℤ × ℤ × ℤ := egcdFuel (a + 1) a b

/-- `mod_inverse(a, m)` from the source: reduce a negative `a` into `[0, m)`,
run the extended Euclidean algorithm, raise `ValueError` when the gcd is not 1,
and otherwise return the Bézout coefficient reduced mod `m`. -/
def mod_inverse (a m : ℤ) : Except String ℤ :=
  let a' := if a < 0 then a % m else a
  let t := extended_gcd a'.toNat m.toNat
  if t.1 ≠ 1 then .error "Pas d'inverse modulaire"
  else .ok (t.2.1 % m)

/-- A point of the curve: either the point at infinity (`Point()`,
i.e. `x = y = None`) or a finite point `Point(x, y)`.  The program only ever
builds points with both coordinates present or both absent. -/
inductive Point : Type
  | infinity : Point
  | finite (x y : ℤ) : Point
deriving DecidableEq, Repr

/-- `Point.is_infinity` from the source. -/
def Point.is_infinity : Point → Bool
  | .infinity => true
  | .finite _ _ => false

/-- `Point.is_on_curve` from the source: the identity is on the curve, and a
finite point is on the curve iff `y² ≡ x³ + A·x + B (mod P)`. -/
def Point.is_on_curve : Point → Bool
  | .infinity => true
  | .finite x y => decide ((y * y) % P = (x ^ 3 + A * x + B) % P)

/-- `point_add` from the source.  Raises (propagates `ValueError` from
`mod_inverse`) exactly when the slope denominator is not invertible mod `P`. -/
def point_add (P1 P2 : Point) : Except String Point :=
  match P1, P2 with
  | .infinity, _ => .ok P2
  | _, .infinity => .ok P1
  | .finite x1 y1, .finite x2 y2 =>
    if x1 = x2 ∧ y1 ≠ y2 then .ok .infinity
    else
      let numerator := if x1 = x2 ∧ y1 = y2 then (3 * x1 * x1 + A) % P else (y2 - y1) % P
      let denominator := if x1 = x2 ∧ y1 = y2 then (2 * y1) % P else (x2 - x1) % P
      do
        let inv ← mod_inverse denominator P
        let lam := numerator * inv % P
        let x3 := (lam * lam - x1 - x2) % P
        let y3 := (lam * (x1 - x3) - y1) % P
        .ok (.finite x3 y3)

/-- The body of the `while k > 0` loop of `point_multiply`, with fuel.  Note
that the Python loop doubles `addend` even on the final iteration, and an
exception from either `point_add` aborts the whole call. -/
def pmLoop : ℕ → ℕ → Point → Point → Except String Point
  | _, 0, result, _ => .ok result
  | 0, _, result, _ => .ok result
  | fuel+1, k, result, addend => do
    let result ← if k % 2 = 1 then point_add result addend else .ok result
    let addend ← point_add addend addend
    pmLoop fuel (k / 2) result addend

/-- `point_multiply(k, P)` from the source (double-and-add).

The `k < 0` branch of the source reads `P = Point(P.x, (-P.y) % P)`: the
parameter `P` shadows the module-level prime `P`, so `(-P.y) % P` is
`int % Point` (or `-None` when `P` is the point at infinity) and raises
`TypeError` for every negative `k`.  The branch is embedded as that error. -/
def point_multiply (k : ℤ) (pt : Point) : Except String Point :=
  if k = 0 then .ok .infinity
  else if k < 0 then .error "TypeError: unsupported operand type(s) for %: 'int' and 'Point'"
  else pmLoop k.toNat k.toNat .infinity pt

/-- `point_negate` from the source. -/
def point_negate : Point → Point
  | .infinity => .infinity
  | .finite x y => .finite x ((-y) % P)

/-- The generator `G = Point(GX, GY)`. -/
def G : Point := .finite GX GY

end ec_utils

/-! ## The embedded program: `attack.py`

The ECDSA layer.  `sign_message`/`verify_signature` take the SHA-1 digest
`e = int(hashlib.sha1(message).hexdigest(), 16)` as an explicit integer
argument (the hash itself is external to the core), and the randomly drawn
nonce of `sign_message` is an explicit argument `k` ranging over the support
`[1, N-1]` of `secrets.randbelow(N - 1) + 1`. -/

namespace attack

open ec_utils

/-- `sign_message` from the source, after the digest computation:
`R = k·G`; `r = R.x mod N` (raises `TypeError` were `R` the point at infinity,
since then `R.x` is `None`); `ValueError` if `r == 0`;
`s = k⁻¹·(e + d·r) mod N`; `ValueError` if `s == 0`; returns `(r, s, k)`. -/
def sign_message (e private_key k : ℤ) : Except String (ℤ × ℤ × ℤ) := do
  let R ← point_multiply k G
  match R with
  | .infinity => .error "TypeError: unsupported operand type(s) for %: 'NoneType' and 'int'"
  | .finite Rx _ =>
    let r := Rx % N
    if r = 0 then .error "Nonce invalide (r = 0)"
    else do
      let k_inv ← mod_inverse k N
      let s := k_inv * (e + private_key * r) % N
      if s = 0 then .error "Nonce invalide (s = 0)"
      else .ok (r, s, k)

/-- `verify_signature` from the source: range-check `(r, s)`, then compute
`R' = (e·s⁻¹)·G + (r·s⁻¹)·Q` and accept iff `R'` is finite and
`R'.x ≡ r (mod N)`. -/
def verify_signature (e : ℤ) (r s : ℤ) (public_key : Point) : Except String Bool :=
  if 1 ≤ r ∧ r < N ∧ 1 ≤ s ∧ s < N then do
    let s_inv ← mod_inverse s N
    let u1 := e * s_inv % N
    let u2 := r * s_inv % N
    let R1 ← point_multiply u1 G
    let R2 ← point_multiply u2 public_key
    let R' ← point_add R1 R2
    match R' with
    | .infinity => .ok false
    | .finite x _ => .ok (decide (x % N = r % N))
  else .ok false

/-- A firmware record.  The JSON field values (`version`, `hash`,
`signature.r`, `signature.s`) cross the I/O boundary as hex strings; the core
consumes their integer values, so the record is embedded with the parsed
integers. -/
structure Firmware : Type where
  version : ℕ
  hash : ℕ
  r : ℕ
  s : ℕ
deriving DecidableEq, Repr

/-- One `by_r.setdefault(r, []).append(fw)` step on the insertion-ordered
dictionary `by_r` (Python dicts preserve insertion order). -/
def insertByR : List (ℕ × List Firmware) → ℕ → Firmware → List (ℕ × List Firmware)
  | [], r, fw => [(r, [fw])]
  | (r', l) :: rest, r, fw =>
    if r' = r then (r', l ++ [fw]) :: rest else (r', l) :: insertByR rest r fw

/-- The first loop of `detect_nonce_reuse`: build `by_r`. -/
def groupByR (firmwares : List Firmware) : List (ℕ × List Firmware) :=
  firmwares.foldl (fun m fw => insertByR m fw.r fw) []

/-- The nested `for i / for j in range(i+1, …)` loops: all ordered pairs. -/
def allPairs : List Firmware → List (Firmware × Firmware)
  | [] => []
  | fw :: rest => rest.map (fun fw2 => (fw, fw2)) ++ allPairs rest

/-- `detect_nonce_reuse` from the source: group records by `r`, and for every
group of size ≥ 2 emit all ordered pairs, groups in insertion order. -/
def detect_nonce_reuse (firmwares : List Firmware) : List (Firmware × Firmware) :=
  (groupByR firmwares).foldr
    (fun g pairs => (if 2 ≤ g.2.length then allPairs g.2 else []) ++ pairs) []

/-- `recover_nonce` from the source: `k = (e1 - e2)·(s1 - s2)⁻¹ mod N`,
propagating the `ValueError` of `mod_inverse` when `s1 ≡ s2 (mod N)`. -/
def recover_nonce (e1 s1 e2 s2 : ℤ) : Except String ℤ := do
  let num := (e1 - e2) % N
  let den := (s1 - s2) % N
  let inv ← mod_inverse den N
  .ok (num * inv % N)

/-- `recover_private_key` from the source: `d = r⁻¹·(k·s - e) mod N`. -/
def recover_private_key (e r s k : ℤ) : Except String ℤ := do
  let rinv ← mod_inverse r N
  .ok (rinv * (k * s - e) % N)

/-- The detection step of the `__main__` driver (attack.py lines 259-262):
`pairs = detect_nonce_reuse(...)`; `if not pairs: raise RuntimeError(...)`. -/
def main_detect (firmwares : List Firmware) : Except String (List (Firmware × Firmware)) :=
  let pairs := detect_nonce_reuse firmwares
  if pairs = [] then .error "Aucune réutilisation de nonce détectée dans firmwares.json"
  else .ok pairs

end attack

/-! ## Correctness of the embedded extended Euclid and `mod_inverse` -/

namespace ec_utils

theorem egcdFuel_irrel : ∀ a f g b : ℕ, a < f → a < g → egcdFuel f a b = egcdFuel g a b := by
  intro a
  induction a using Nat.strong_induction_on with
  | _ a ih =>
    intro f g b hf hg
    obtain ⟨f', rfl⟩ : ∃ f', f = f' + 1 := ⟨f - 1, by omega⟩
    obtain ⟨g', rfl⟩ : ∃ g', g = g' + 1 := ⟨g - 1, by omega⟩
    rcases Nat.eq_zero_or_pos a with rfl | ha
    · rfl
    · obtain ⟨a', rfl⟩ : ∃ a', a = a' + 1 := ⟨a - 1, by omega⟩
      have hmlt : b % (a' + 1) < a' + 1 := Nat.mod_lt b (by omega)
      simp only [egcdFuel]
      rw [ih (b % (a' + 1)) hmlt f' g' (a' + 1) (by omega) (by omega)]

theorem extended_gcd_zero (b : ℕ) : extended_gcd 0 b = ((b : ℤ), 0, 1) := rfl

theorem extended_gcd_rec (a b : ℕ) (ha : a ≠ 0) :
    extended_gcd a b =
      ((extended_gcd (b % a) a).1,
        (extended_gcd (b % a) a).2.2 - ((b / a : ℕ) : ℤ) * (extended_gcd (b % a) a).2.1,
        (extended_gcd (b % a) a).2.1) := by
  obtain ⟨a', rfl⟩ : ∃ a', a = a' + 1 := ⟨a - 1, by omega⟩
  have hmlt : b % (a' + 1) < a' + 1 := Nat.mod_lt b (by omega)
  show egcdFuel (a' + 1 + 1) (a' + 1) b = _
  simp only [egcdFuel]
  rw [egcdFuel_irrel (b % (a' + 1)) (a' + 1) (b % (a' + 1) + 1) (a' + 1) (by omega) (by omega)]
  rfl

theorem extended_gcd_gcd : ∀ a b : ℕ, (extended_gcd a b).1 = (Nat.gcd a b : ℤ) := by
  intro a
  induction a using Nat.strong_induction_on with
  | _ a ih =>
    intro b
    rcases Nat.eq_zero_or_pos a with rfl | ha
    · simp [extended_gcd_zero]
    · rw [extended_gcd_rec a b (by omega), Nat.gcd_rec]
      exact ih (b % a) (Nat.mod_lt b ha) a

theorem extended_gcd_bezout : ∀ a b : ℕ,
    (a : ℤ) * (extended_gcd a b).2.1 + (b : ℤ) * (extended_gcd a b).2.2
      = (extended_gcd a b).1 := by
  intro a
  induction a using Nat.strong_induction_on with
  | _ a ih =>
    intro b
    rcases Nat.eq_zero_or_pos a with rfl | ha
    · simp [extended_gcd_zero]
    · have hrec := ih (b % a) (Nat.mod_lt b ha) a
      rw [extended_gcd_rec a b (by omega)]
      have hdm : (b : ℤ) = (a : ℤ) * ((b / a : ℕ) : ℤ) + ((b % a : ℕ) : ℤ) := by
        exact_mod_cast (Nat.div_add_mod b a).symm
      show (a : ℤ) * ((extended_gcd (b % a) a).2.2
          - ((b / a : ℕ) : ℤ) * (extended_gcd (b % a) a).2.1)
          + (b : ℤ) * (extended_gcd (b % a) a).2.1 = (extended_gcd (b % a) a).1
      linear_combination hrec + (extended_gcd (b % a) a).2.1 * hdm

theorem int_gcd_emod_left (a m : ℤ) : Int.gcd (a % m) m = Int.gcd a m := by
  have hmod : a % m = a - m * (a / m) := Int.emod_def a m
  apply Nat.dvd_antisymm
  · rw [← Int.natCast_dvd_natCast]
    apply Int.dvd_gcd
    · have h1 : (Int.gcd (a % m) m : ℤ) ∣ a % m := Int.gcd_dvd_left
      have h2 : (Int.gcd (a % m) m : ℤ) ∣ m := Int.gcd_dvd_right
      have h3 := dvd_add h1 (h2.mul_right (a / m))
      have h4 : a % m + m * (a / m) = a := by rw [hmod]; ring
      rwa [h4] at h3
    · exact Int.gcd_dvd_right
  · rw [← Int.natCast_dvd_natCast]
    apply Int.dvd_gcd
    · rw [hmod]
      exact dvd_sub Int.gcd_dvd_left (Int.gcd_dvd_right.mul_right (a / m))
    · exact Int.gcd_dvd_right

theorem toNat_nonneg_cast {a : ℤ} (ha : 0 ≤ a) : ((a.toNat : ℕ) : ℤ) = a :=
  Int.toNat_of_nonneg ha

/-- The first component computed inside `mod_inverse` is `gcd(a, m)`. -/
theorem mod_inverse_gcd_fst (a m : ℤ) (hm : 0 < m) :
    (extended_gcd (if a < 0 then a % m else a).toNat m.toNat).1 = (Int.gcd a m : ℤ) := by
  set a' : ℤ := if a < 0 then a % m else a with ha_def
  have ha' : 0 ≤ a' := by
    rw [ha_def]
    split
    · exact Int.emod_nonneg a (by omega)
    · omega
  rw [extended_gcd_gcd]
  have h1 : Nat.gcd a'.toNat m.toNat = Int.gcd a' m := by
    rw [Int.gcd]
    congr 1
    · omega
    · omega
  rw [h1]
  rw [ha_def]
  split
  · rw [int_gcd_emod_left]
  · rfl

theorem mod_inverse_ok {a m x : ℤ} (hm : 0 < m) (h : mod_inverse a m = .ok x) :
    0 ≤ x ∧ x < m ∧ a * x ≡ 1 [ZMOD m] := by
  simp only [mod_inverse] at h
  set a' : ℤ := if a < 0 then a % m else a with ha_def
  have ha' : 0 ≤ a' := by
    rw [ha_def]
    split
    · exact Int.emod_nonneg a (by omega)
    · omega
  split at h
  · exact absurd h (by simp)
  · rename_i hg
    push_neg at hg
    injection h with h
    subst h
    refine ⟨Int.emod_nonneg _ (by omega), Int.emod_lt_of_pos _ hm, ?_⟩
    have hbez := extended_gcd_bezout a'.toNat m.toNat
    rw [hg] at hbez
    rw [toNat_nonneg_cast ha', toNat_nonneg_cast (le_of_lt hm)] at hbez
    have haa' : a ≡ a' [ZMOD m] := by
      rw [ha_def]
      split
      · exact (Int.emod_emod_of_dvd a dvd_rfl).symm
      · rfl
    have hxx : (extended_gcd a'.toNat m.toNat).2.1 % m
        ≡ (extended_gcd a'.toNat m.toNat).2.1 [ZMOD m] :=
      Int.emod_emod_of_dvd _ dvd_rfl
    calc a * ((extended_gcd a'.toNat m.toNat).2.1 % m)
        ≡ a' * (extended_gcd a'.toNat m.toNat).2.1 [ZMOD m] := haa'.mul hxx
      _ ≡ 1 [ZMOD m] := by
          rw [Int.ModEq]
          conv_rhs => rw [show (1 : ℤ) = a' * (extended_gcd a'.toNat m.toNat).2.1
            + m * (extended_gcd a'.toNat m.toNat).2.2 from hbez.symm]
          rw [Int.add_mul_emod_self_left]

theorem mod_inverse_of_gcd_one {a m : ℤ} (hm : 0 < m) (hg : Int.gcd a m = 1) :
    ∃ x, mod_inverse a m = .ok x := by
  refine ⟨(extended_gcd (if a < 0 then a % m else a).toNat m.toNat).2.1 % m, ?_⟩
  simp only [mod_inverse]
  rw [if_neg]
  rw [mod_inverse_gcd_fst a m hm, hg]
  simp

theorem mod_inverse_of_gcd_ne_one {a m : ℤ} (hm : 0 < m) (hg : Int.gcd a m ≠ 1) :
    mod_inverse a m = .error "Pas d'inverse modulaire" := by
  simp only [mod_inverse]
  rw [if_pos]
  rw [mod_inverse_gcd_fst a m hm]
  exact_mod_cast hg

end ec_utils

/-! ## Bridge to the Mathlib Weierstrass curve over `ZMod Pnat` -/

namespace ec_utils

theorem Pnat_cast : ((Pnat : ℕ) : ℤ) = P := rfl

theorem Nnat_cast : ((Nnat : ℕ) : ℤ) = N := rfl

instance fact_prime_Pnat : Fact (Nat.Prime Pnat) := ⟨prime_Pnat⟩

instance fact_prime_Nnat : Fact (Nat.Prime Nnat) := ⟨prime_Nnat⟩

/-- The VSH curve as a short Weierstrass curve over the field `ZMod Pnat`. -/
def W : WeierstrassCurve.Affine (ZMod Pnat) :=
  { a₁ := 0, a₂ := 0, a₃ := 0, a₄ := (A : ZMod Pnat), a₆ := (B : ZMod Pnat) }

theorem equation_iff_int (x y : ℤ) :
    W.Equation (x : ZMod Pnat) (y : ZMod Pnat) ↔ (y * y) % P = (x ^ 3 + A * x + B) % P := by
  have h1 : ((y * y : ℤ) : ZMod Pnat) = ((x ^ 3 + A * x + B : ℤ) : ZMod Pnat)
      ↔ (y * y) % P = (x ^ 3 + A * x + B) % P := by
    rw [ZMod.intCast_eq_intCast_iff', Pnat_cast]
  rw [← h1, WeierstrassCurve.Affine.equation_iff]
  simp only [W]
  push_cast
  constructor <;> intro h <;> linear_combination h

theorem is_on_curve_iff (x y : ℤ) :
    (Point.finite x y).is_on_curve = true ↔ W.Equation (x : ZMod Pnat) (y : ZMod Pnat) := by
  rw [equation_iff_int]
  simp [Point.is_on_curve]

theorem W_delta_ne_zero : W.Δ ≠ 0 := by
  have h : W.Δ = ((-16 * (4 * A ^ 3 + 27 * B ^ 2) : ℤ) : ZMod Pnat) := by
    simp only [WeierstrassCurve.Δ, WeierstrassCurve.b₂, WeierstrassCurve.b₄, WeierstrassCurve.b₆,
      WeierstrassCurve.b₈, W]
    push_cast
    ring
  rw [h, Ne, ZMod.intCast_zmod_eq_zero_iff_dvd, Pnat_cast, Int.dvd_iff_emod_eq_zero]
  decide

theorem nonsingular_of_equation {x y : ZMod Pnat} (h : W.Equation x y) : W.Nonsingular x y :=
  W.nonsingular_of_Δ_ne_zero h W_delta_ne_zero

theorem negY_eq (x y : ZMod Pnat) : W.negY x y = -y := by
  simp [WeierstrassCurve.Affine.negY, W]

/-- `pt` is the concrete program-level picture of the abstract curve point `q`:
the point at infinity stands for the group identity, and a finite point stands
for a nonsingular affine point whose coordinates are the mod-`P` reductions. -/
def Represents : Point → W.Point → Prop
  | .infinity, q => q = 0
  | .finite x y, q =>
    0 ≤ x ∧ x < P ∧ 0 ≤ y ∧ y < P ∧
      ∃ h : W.Nonsingular (x : ZMod Pnat) (y : ZMod Pnat), q = .some h

theorem represents_infinity : Represents .infinity 0 := rfl

theorem int_cast_inj_of_range {x x' : ℤ} (h0 : 0 ≤ x) (h1 : x < P) (h0' : 0 ≤ x')
    (h1' : x' < P) (h : (x : ZMod Pnat) = (x' : ZMod Pnat)) : x = x' := by
  rw [ZMod.intCast_eq_intCast_iff', Pnat_cast] at h
  rwa [Int.emod_eq_of_lt h0 h1, Int.emod_eq_of_lt h0' h1'] at h

theorem Represents.functional {p : Point} {q q' : W.Point}
    (h : Represents p q) (h' : Represents p q') : q = q' := by
  cases p with
  | infinity =>
    rw [show q = 0 from h, show q' = 0 from h']
  | finite x y =>
    obtain ⟨-, -, -, -, hns, rfl⟩ := h
    obtain ⟨-, -, -, -, hns', rfl⟩ := h'
    rfl

theorem Represents.inj {p p' : Point} {q : W.Point}
    (h : Represents p q) (h' : Represents p' q) : p = p' := by
  cases p with
  | infinity =>
    cases p' with
    | infinity => rfl
    | finite x' y' =>
      obtain ⟨-, -, -, -, hns', rfl⟩ := h'
      exact absurd h (WeierstrassCurve.Affine.Point.some_ne_zero hns')
  | finite x y =>
    cases p' with
    | infinity =>
      obtain ⟨-, -, -, -, hns, rfl⟩ := h
      exact absurd h' (WeierstrassCurve.Affine.Point.some_ne_zero hns)
    | finite x' y' =>
      obtain ⟨hx0, hx1, hy0, hy1, hns, rfl⟩ := h
      obtain ⟨hx0', hx1', hy0', hy1', hns', heq⟩ := h'
      injection heq with hxe hye
      rw [int_cast_inj_of_range hx0 hx1 hx0' hx1' hxe,
        int_cast_inj_of_range hy0 hy1 hy0' hy1' hye]

end ec_utils

namespace ec_utils

theorem P_pos : (0 : ℤ) < P := by decide

theorem N_pos : (0 : ℤ) < N := by decide

theorem cast_emod_P (z : ℤ) : ((z % P : ℤ) : ZMod Pnat) = (z : ZMod Pnat) := by
  rw [ZMod.intCast_eq_intCast_iff', Pnat_cast, Int.emod_emod_of_dvd _ dvd_rfl]

theorem cast_emod_N (z : ℤ) : ((z % N : ℤ) : ZMod Nnat) = (z : ZMod Nnat) := by
  rw [ZMod.intCast_eq_intCast_iff', Nnat_cast, Int.emod_emod_of_dvd _ dvd_rfl]

theorem mod_inverse_prime_ok (p : ℕ) [hp : Fact (Nat.Prime p)] {den : ℤ}
    (hden : (den : ZMod p) ≠ 0) :
    ∃ inv, mod_inverse den (p : ℤ) = .ok inv ∧ (den : ZMod p) * (inv : ZMod p) = 1 := by
  have hpos : (0 : ℤ) < (p : ℤ) := by exact_mod_cast hp.out.pos
  have hndvd : ¬ (p : ℤ) ∣ den := fun hdvd =>
    hden ((ZMod.intCast_zmod_eq_zero_iff_dvd den p).mpr hdvd)
  have hgcd : Int.gcd den (p : ℤ) = 1 := by
    have h1 : ¬ p ∣ den.natAbs := by
      intro h
      exact hndvd (Int.natAbs_dvd_natAbs.mp (by simpa using h))
    have h2 : Nat.Coprime p den.natAbs := hp.out.coprime_iff_not_dvd.mpr h1
    have h3 : Nat.gcd den.natAbs p = 1 := Nat.coprime_comm.mp h2
    rw [Int.gcd]
    simpa using h3
  obtain ⟨x, hx⟩ := mod_inverse_of_gcd_one hpos hgcd
  refine ⟨x, hx, ?_⟩
  have hmod := (mod_inverse_ok hpos hx).2.2
  have hcast := (ZMod.intCast_eq_intCast_iff (den * x) 1 p).mpr hmod
  push_cast at hcast
  exact hcast

theorem mod_inverse_P_ok {den : ℤ} (hden : (den : ZMod Pnat) ≠ 0) :
    ∃ inv, mod_inverse den P = .ok inv ∧ (den : ZMod Pnat) * (inv : ZMod Pnat) = 1 :=
  mod_inverse_prime_ok Pnat hden

theorem mod_inverse_N_ok {den : ℤ} (hden : (den : ZMod Nnat) ≠ 0) :
    ∃ inv, mod_inverse den N = .ok inv ∧ (den : ZMod Nnat) * (inv : ZMod Nnat) = 1 :=
  mod_inverse_prime_ok Nnat hden

theorem two_ne_zero_P : (2 : ZMod Pnat) ≠ 0 := by
  have h : ((2 : ℕ) : ZMod Pnat) ≠ 0 := by
    rw [Ne, ZMod.natCast_zmod_eq_zero_iff_dvd]
    decide
  simpa using h

theorem point_some_congr {x y x' y' : ZMod Pnat} (hx : x = x') (hy : y = y')
    (h : W.Nonsingular x y) :
    ∃ h' : W.Nonsingular x' y', (WeierstrassCurve.Affine.Point.some h : W.Point) = .some h' := by
  subst hx
  subst hy
  exact ⟨h, rfl⟩

end ec_utils

namespace ec_utils

theorem P_ne_zero : (P : ℤ) ≠ 0 := by decide

theorem represents_slope_point {x₁ y₁ x₂ y₂ lam : ℤ}
    (hns₁ : W.Nonsingular (x₁ : ZMod Pnat) (y₁ : ZMod Pnat))
    (hns₂ : W.Nonsingular (x₂ : ZMod Pnat) (y₂ : ZMod Pnat))
    (hxy : (x₁ : ZMod Pnat) = (x₂ : ZMod Pnat) →
      (y₁ : ZMod Pnat) ≠ W.negY (x₂ : ZMod Pnat) (y₂ : ZMod Pnat))
    (hlam : (lam : ZMod Pnat)
      = W.slope (x₁ : ZMod Pnat) (x₂ : ZMod Pnat) (y₁ : ZMod Pnat) (y₂ : ZMod Pnat)) :
    Represents
      (.finite ((lam * lam - x₁ - x₂) % P)
        ((lam * (x₁ - (lam * lam - x₁ - x₂) % P) - y₁) % P))
      (.some hns₁ + .some hns₂) := by
  have hx₃c : (((lam * lam - x₁ - x₂) % P : ℤ) : ZMod Pnat)
      = W.addX (x₁ : ZMod Pnat) (x₂ : ZMod Pnat)
          (W.slope (x₁ : ZMod Pnat) (x₂ : ZMod Pnat) (y₁ : ZMod Pnat) (y₂ : ZMod Pnat)) := by
    rw [cast_emod_P]
    push_cast
    rw [hlam]
    simp only [WeierstrassCurve.Affine.addX, W]
    ring
  have hy₃c : (((lam * (x₁ - (lam * lam - x₁ - x₂) % P) - y₁) % P : ℤ) : ZMod Pnat)
      = W.addY (x₁ : ZMod Pnat) (x₂ : ZMod Pnat) (y₁ : ZMod Pnat)
          (W.slope (x₁ : ZMod Pnat) (x₂ : ZMod Pnat) (y₁ : ZMod Pnat) (y₂ : ZMod Pnat)) := by
    rw [cast_emod_P]
    push_cast
    rw [hlam, hx₃c]
    simp only [WeierstrassCurve.Affine.addY, WeierstrassCurve.Affine.negAddY,
      WeierstrassCurve.Affine.negY, W]
    ring
  obtain ⟨hns₃, hsome⟩ := point_some_congr hx₃c.symm hy₃c.symm
    (WeierstrassCurve.Affine.nonsingular_add hns₁ hns₂ hxy)
  simp only [Represents]
  refine ⟨Int.emod_nonneg _ P_ne_zero, Int.emod_lt_of_pos _ P_pos,
    Int.emod_nonneg _ P_ne_zero, Int.emod_lt_of_pos _ P_pos, hns₃, ?_⟩
  rw [WeierstrassCurve.Affine.Point.add_of_imp hxy]
  exact hsome

theorem point_add_opp {x₁ y₁ x₂ y₂ : ℤ} (hx : x₁ = x₂) (hy : y₁ ≠ y₂) :
    point_add (.finite x₁ y₁) (.finite x₂ y₂) = .ok .infinity := by
  simp [point_add, hx, hy]

theorem cast_lam {num den inv : ℤ} (hinv : (den : ZMod Pnat) * (inv : ZMod Pnat) = 1) :
    (((num % P) * inv % P : ℤ) : ZMod Pnat)
      = (num : ZMod Pnat) * (den : ZMod Pnat)⁻¹ := by
  rw [cast_emod_P]
  push_cast
  rw [cast_emod_P]
  rw [inv_eq_of_mul_eq_one_right hinv]

end ec_utils


namespace ec_utils

/-- `point_add` refines the Mathlib group operation: on represented points it
succeeds and represents the sum, unless both arguments are the same finite
point of order two (the only case in which the doubling denominator `2·y` is
not invertible mod `P`).  The side condition rules that case out. -/
theorem point_add_ok {p₁ p₂ : Point} {q₁ q₂ : W.Point}
    (h₁ : Represents p₁ q₁) (h₂ : Represents p₂ q₂)
    (hcond : q₁ = q₂ → q₁ + q₁ = 0 → q₁ = 0) :
    ∃ p₃, point_add p₁ p₂ = .ok p₃ ∧ Represents p₃ (q₁ + q₂) := by
  cases p₁ with
  | infinity =>
    have hq₁ : q₁ = 0 := h₁
    refine ⟨p₂, ?_, ?_⟩
    · cases p₂ <;> rfl
    · rw [hq₁, zero_add]
      exact h₂
  | finite x₁ y₁ =>
    cases p₂ with
    | infinity =>
      have hq₂ : q₂ = 0 := h₂
      refine ⟨.finite x₁ y₁, rfl, ?_⟩
      rw [hq₂, add_zero]
      exact h₁
    | finite x₂ y₂ =>
      obtain ⟨hx0₁, hx1₁, hy0₁, hy1₁, hns₁, rfl⟩ := h₁
      obtain ⟨hx0₂, hx1₂, hy0₂, hy1₂, hns₂, rfl⟩ := h₂
      by_cases hopp : x₁ = x₂ ∧ y₁ ≠ y₂
      · obtain ⟨hx, hy⟩ := hopp
        subst hx
        have hYne : (y₁ : ZMod Pnat) ≠ (y₂ : ZMod Pnat) := fun h =>
          hy (int_cast_inj_of_range hy0₁ hy1₁ hy0₂ hy1₂ h)
        have hYeq : (y₁ : ZMod Pnat) = W.negY (x₁ : ZMod Pnat) (y₂ : ZMod Pnat) :=
          (WeierstrassCurve.Affine.Y_eq_of_X_eq hns₁.1 hns₂.1 rfl).resolve_left hYne
        refine ⟨.infinity, point_add_opp rfl hy, ?_⟩
        simp only [Represents]
        exact WeierstrassCurve.Affine.Point.add_of_Y_eq rfl hYeq
      · by_cases hdbl : x₁ = x₂ ∧ y₁ = y₂
        · obtain ⟨hx, hy⟩ := hdbl
          subst hx
          subst hy
          have hqeq : (WeierstrassCurve.Affine.Point.some hns₁ : W.Point) = .some hns₂ := rfl
          have hy_ne : y₁ ≠ 0 := by
            intro h0
            have hYeq : (y₁ : ZMod Pnat) = W.negY (x₁ : ZMod Pnat) (y₁ : ZMod Pnat) := by
              rw [negY_eq]
              subst h0
              push_cast
              ring
            have hsum : (WeierstrassCurve.Affine.Point.some hns₁ : W.Point) + .some hns₁ = 0 :=
              WeierstrassCurve.Affine.Point.add_of_Y_eq rfl hYeq
            exact WeierstrassCurve.Affine.Point.some_ne_zero hns₁ (hcond hqeq hsum)
          have hYne0 : (y₁ : ZMod Pnat) ≠ 0 := by
            intro h
            apply hy_ne
            refine int_cast_inj_of_range hy0₁ hy1₁ le_rfl P_pos ?_
            push_cast
            exact h
          have hYnegY : (y₁ : ZMod Pnat) ≠ W.negY (x₁ : ZMod Pnat) (y₁ : ZMod Pnat) := by
            rw [negY_eq]
            intro h
            have h2 : (2 : ZMod Pnat) * (y₁ : ZMod Pnat) = 0 := by linear_combination h
            rcases mul_eq_zero.mp h2 with h' | h'
            · exact two_ne_zero_P h'
            · exact hYne0 h'
          have hden_ne : (((2 * y₁) % P : ℤ) : ZMod Pnat) ≠ 0 := by
            rw [cast_emod_P]
            push_cast
            intro h
            rcases mul_eq_zero.mp h with h' | h'
            · exact two_ne_zero_P h'
            · exact hYne0 h'
          obtain ⟨inv, hinv, hinvmul⟩ := mod_inverse_P_ok hden_ne
          have hxy2 : (x₁ : ZMod Pnat) = (x₁ : ZMod Pnat) →
              (y₁ : ZMod Pnat) ≠ W.negY (x₁ : ZMod Pnat) (y₁ : ZMod Pnat) := fun _ => hYnegY
          have hlam : ((((3 * x₁ * x₁ + A) % P) * inv % P : ℤ) : ZMod Pnat)
              = W.slope (x₁ : ZMod Pnat) (x₁ : ZMod Pnat) (y₁ : ZMod Pnat) (y₁ : ZMod Pnat) := by
            rw [cast_lam hinvmul, cast_emod_P, WeierstrassCurve.Affine.slope_of_Y_ne rfl hYnegY,
              negY_eq]
            simp only [W]
            rw [div_eq_mul_inv]
            push_cast
            ring_nf
          refine ⟨_, ?_, represents_slope_point hns₁ hns₂ hxy2 hlam⟩
          simp only [point_add, true_and, and_self, if_true, ne_self_iff_false, if_false]
          rw [hinv]
          rfl
        · have himp : x₁ = x₂ → y₁ = y₂ := by
            intro h
            by_contra hne
            exact hopp ⟨h, hne⟩
          have hxne : x₁ ≠ x₂ := fun h => hdbl ⟨h, himp h⟩
          have hXne : (x₁ : ZMod Pnat) ≠ (x₂ : ZMod Pnat) := fun h =>
            hxne (int_cast_inj_of_range hx0₁ hx1₁ hx0₂ hx1₂ h)
          have hden_ne : (((x₂ - x₁) % P : ℤ) : ZMod Pnat) ≠ 0 := by
            rw [cast_emod_P]
            push_cast
            intro h
            exact hXne (sub_eq_zero.mp h).symm
          obtain ⟨inv, hinv, hinvmul⟩ := mod_inverse_P_ok hden_ne
          have hxy2 : (x₁ : ZMod Pnat) = (x₂ : ZMod Pnat) →
              (y₁ : ZMod Pnat) ≠ W.negY (x₂ : ZMod Pnat) (y₂ : ZMod Pnat) := fun h =>
            absurd h hXne
          have hlam : ((((y₂ - y₁) % P) * inv % P : ℤ) : ZMod Pnat)
              = W.slope (x₁ : ZMod Pnat) (x₂ : ZMod Pnat) (y₁ : ZMod Pnat) (y₂ : ZMod Pnat) := by
            rw [cast_lam hinvmul, cast_emod_P, WeierstrassCurve.Affine.slope_of_X_ne hXne,
              div_eq_mul_inv,
              show ((x₁ : ZMod Pnat) - (x₂ : ZMod Pnat)) = -((x₂ : ZMod Pnat) - (x₁ : ZMod Pnat))
                from by ring, inv_neg]
            push_cast
            ring
          refine ⟨_, ?_, represents_slope_point hns₁ hns₂ hxy2 hlam⟩
          simp only [point_add]
          rw [if_neg hopp]
          simp only [if_neg hdbl]
          rw [hinv]
          rfl

end ec_utils

namespace ec_utils

theorem except_ok_bind {α β : Type} (a : α) (f : α → Except String β) :
    (Except.ok a).bind f = f a := rfl

theorem except_ok_seq {α β : Type} (a : α) (f : α → Except String β) :
    (Except.ok a >>= f) = f a := rfl

theorem except_error_seq {α β : Type} (msg : String) (f : α → Except String β) :
    ((Except.error msg : Except String α) >>= f) = .error msg := rfl

theorem except_error_bind {α β : Type} (msg : String) (f : α → Except String β) :
    (Except.error msg : Except String α).bind f = .error msg := rfl

/-- `point_add` on two finite points that are not an inverse pair, written as a
single bind on the slope-denominator inversion. -/
theorem point_add_finite_eq {x₁ y₁ x₂ y₂ : ℤ} (hopp : ¬(x₁ = x₂ ∧ y₁ ≠ y₂)) :
    point_add (.finite x₁ y₁) (.finite x₂ y₂) =
      (mod_inverse (if x₁ = x₂ ∧ y₁ = y₂ then (2 * y₁) % P else (x₂ - x₁) % P) P).bind
        (fun inv =>
          let lam := (if x₁ = x₂ ∧ y₁ = y₂ then (3 * x₁ * x₁ + A) % P else (y₂ - y₁) % P)
            * inv % P
          let x₃ := (lam * lam - x₁ - x₂) % P
          .ok (.finite x₃ ((lam * (x₁ - x₃) - y₁) % P))) := by
  simp only [point_add]
  rw [if_neg hopp]
  rfl

theorem mod_inverse_P_mul {a x : ℤ} (h : mod_inverse a P = .ok x) :
    (a : ZMod Pnat) * (x : ZMod Pnat) = 1 := by
  have hmod := (mod_inverse_ok P_pos h).2.2
  have h2 := (ZMod.intCast_eq_intCast_iff (a * x) 1 Pnat).mpr (by rwa [Pnat_cast])
  push_cast at h2
  exact h2

theorem mod_inverse_P_err {den : ℤ} (hden : (den : ZMod Pnat) = 0) :
    mod_inverse den P = .error "Pas d'inverse modulaire" := by
  apply mod_inverse_of_gcd_ne_one P_pos
  have hdvd : (P : ℤ) ∣ den := by
    have := (ZMod.intCast_zmod_eq_zero_iff_dvd den Pnat).mp hden
    rwa [Pnat_cast] at this
  rw [Int.gcd_eq_right hdvd]
  decide

/-- If both arguments are the same finite represented point of order two, the
doubling denominator is `0 mod P` and `point_add` raises `NoInverseError`. -/
theorem point_add_two_torsion_fails {x y : ℤ} (h2y : ((2 * y : ℤ) : ZMod Pnat) = 0) :
    point_add (.finite x y) (.finite x y) = .error "Pas d'inverse modulaire" := by
  rw [point_add_finite_eq (by simp)]
  rw [if_pos ⟨rfl, rfl⟩]
  rw [mod_inverse_P_err (by rwa [cast_emod_P])]
  rfl

/-- Success version of the refinement: whenever `point_add` returns a point at
all, that point represents the group-law sum.  (No order-two side condition:
failure is exactly the excluded case.) -/
theorem point_add_rep_of_ok {p₁ p₂ : Point} {q₁ q₂ : W.Point} {p₃ : Point}
    (h₁ : Represents p₁ q₁) (h₂ : Represents p₂ q₂)
    (h : point_add p₁ p₂ = .ok p₃) : Represents p₃ (q₁ + q₂) := by
  by_cases hcond : q₁ = q₂ → q₁ + q₁ = 0 → q₁ = 0
  · obtain ⟨p₃', hok, hrep⟩ := point_add_ok h₁ h₂ hcond
    rw [h] at hok
    injection hok with hok
    rw [hok]
    exact hrep
  · push_neg at hcond
    obtain ⟨hq12, hsum, hq1ne⟩ := hcond
    exfalso
    cases p₁ with
    | infinity => exact hq1ne h₁
    | finite x y =>
      obtain ⟨hx0, hx1, hy0, hy1, hns, rfl⟩ := h₁
      have hp12 : Point.finite x y = p₂ := by
        refine Represents.inj ?_ h₂
        rw [← hq12]
        exact ⟨hx0, hx1, hy0, hy1, hns, rfl⟩
      rw [← hp12] at h
      have hYnegY : (y : ZMod Pnat) = W.negY (x : ZMod Pnat) (y : ZMod Pnat) := by
        by_contra hne
        rw [WeierstrassCurve.Affine.Point.add_of_Y_ne hne] at hsum
        exact WeierstrassCurve.Affine.Point.some_ne_zero _ hsum
      have h2y : ((2 * y : ℤ) : ZMod Pnat) = 0 := by
        rw [negY_eq] at hYnegY
        push_cast
        linear_combination hYnegY
      rw [point_add_two_torsion_fails h2y] at h
      exact absurd h (by simp)

theorem pmLoop_succ (fuel k : ℕ) (result addend : Point) :
    pmLoop (fuel + 1) (k + 1) result addend =
      if (k + 1) % 2 = 1 then
        (point_add result addend).bind (fun r =>
          (point_add addend addend).bind (fun a => pmLoop fuel ((k + 1) / 2) r a))
      else
        (point_add addend addend).bind (fun a => pmLoop fuel ((k + 1) / 2) result a) := rfl

/-- The double-and-add loop refines `qr + k • qa`, given that it succeeds. -/
theorem pmLoop_rep_of_ok : ∀ fuel k : ℕ, k < 2 ^ fuel →
    ∀ (result addend res : Point) (qr qa : W.Point),
    Represents result qr → Represents addend qa →
    pmLoop fuel k result addend = .ok res →
    Represents res (qr + k • qa) := by
  intro fuel
  induction fuel with
  | zero =>
    intro k hk result addend res qr qa hr ha h
    interval_cases k
    injection h with h
    rw [← h, zero_nsmul, add_zero]
    exact hr
  | succ fuel ih =>
    intro k hk result addend res qr qa hr ha h
    cases k with
    | zero =>
      injection h with h
      rw [← h, zero_nsmul, add_zero]
      exact hr
    | succ k =>
      rw [pmLoop_succ] at h
      by_cases hpar : (k + 1) % 2 = 1
      · rw [if_pos hpar] at h
        rcases hres1 : point_add result addend with msg | result'
        · rw [hres1, except_error_bind] at h
          exact absurd h (by simp)
        · rw [hres1, except_ok_bind] at h
          rcases hres2 : point_add addend addend with msg | addend'
          · rw [hres2, except_error_bind] at h
            exact absurd h (by simp)
          · rw [hres2, except_ok_bind] at h
            have hrepa : Represents addend' (qa + qa) := point_add_rep_of_ok ha ha hres2
            have hrepr : Represents result' (qr + qa) := point_add_rep_of_ok hr ha hres1
            have hrec := ih ((k + 1) / 2) (by rw [pow_succ] at hk; omega) result' addend' res
              (qr + qa) (qa + qa) hrepr hrepa h
            have harith : qr + qa + ((k + 1) / 2) • (qa + qa) = qr + (k + 1) • qa := by
              have hksplit : k + 1 = 2 * ((k + 1) / 2) + 1 := by omega
              calc qr + qa + ((k + 1) / 2) • (qa + qa)
                  = qr + qa + ((k + 1) / 2) • (2 • qa) := by rw [two_nsmul]
                _ = qr + qa + (2 * ((k + 1) / 2)) • qa := by rw [mul_nsmul]
                _ = qr + (k + 1) • qa := by
                    conv_rhs => rw [hksplit]
                    rw [add_nsmul, one_nsmul]
                    abel
            rwa [harith] at hrec
      · rw [if_neg hpar] at h
        rcases hres2 : point_add addend addend with msg | addend'
        · rw [hres2, except_error_bind] at h
          exact absurd h (by simp)
        · rw [hres2, except_ok_bind] at h
          have hrepa : Represents addend' (qa + qa) := point_add_rep_of_ok ha ha hres2
          have hrec := ih ((k + 1) / 2) (by rw [pow_succ] at hk; omega) result addend' res
            qr (qa + qa) hr hrepa h
          have harith : qr + ((k + 1) / 2) • (qa + qa) = qr + (k + 1) • qa := by
            have hksplit : k + 1 = 2 * ((k + 1) / 2) := by omega
            calc qr + ((k + 1) / 2) • (qa + qa)
                = qr + ((k + 1) / 2) • (2 • qa) := by rw [two_nsmul]
              _ = qr + (2 * ((k + 1) / 2)) • qa := by rw [mul_nsmul]
              _ = qr + (k + 1) • qa := by conv_rhs => rw [hksplit]
          rwa [harith] at hrec

end ec_utils

namespace ec_utils

theorem point_multiply_zero (pt : Point) : point_multiply 0 pt = .ok .infinity := rfl

theorem point_multiply_pos {k : ℤ} (hk : 0 < k) (pt : Point) :
    point_multiply k pt = pmLoop k.toNat k.toNat .infinity pt := by
  simp only [point_multiply]
  rw [if_neg (by omega), if_neg (by omega)]

theorem point_multiply_rep_of_ok {pt res : Point} {q : W.Point} {k : ℤ} (hk : 0 ≤ k)
    (hrep : Represents pt q) (h : point_multiply k pt = .ok res) :
    Represents res (k.toNat • q) := by
  rcases eq_or_lt_of_le hk with heq | hlt
  · rw [← heq] at h ⊢
    rw [point_multiply_zero] at h
    injection h with h
    rw [← h]
    show (0 : W.Point) = 0
    simp
  · rw [point_multiply_pos hlt] at h
    have := pmLoop_rep_of_ok k.toNat k.toNat (Nat.lt_two_pow k.toNat) .infinity pt res 0 q
      represents_infinity hrep h
    rwa [zero_add] at this

theorem G_equation : W.Equation (GX : ZMod Pnat) (GY : ZMod Pnat) := by
  rw [← is_on_curve_iff]
  decide

theorem G_nonsingular : W.Nonsingular (GX : ZMod Pnat) (GY : ZMod Pnat) :=
  nonsingular_of_equation G_equation

/-- The generator as an abstract (Mathlib-level) point of the curve. -/
def Gq : W.Point := .some G_nonsingular

theorem rep_G : Represents G Gq := by
  show Represents (.finite GX GY) Gq
  exact ⟨by decide, by decide, by decide, by decide, G_nonsingular, rfl⟩

/-- `N · G = O`, by kernel computation of the embedded double-and-add. -/
theorem NG_infinity : point_multiply N G = .ok .infinity := by decide

theorem N_smul_Gq : Nnat • Gq = 0 := by
  have h := point_multiply_rep_of_ok (le_of_lt N_pos) rep_G NG_infinity
  rw [show N.toNat = Nnat from rfl] at h
  exact h

theorem Gq_ne_zero : Gq ≠ 0 := WeierstrassCurve.Affine.Point.some_ne_zero G_nonsingular

theorem addOrderOf_Gq : addOrderOf Gq = Nnat := by
  have hdvd : addOrderOf Gq ∣ Nnat := addOrderOf_dvd_of_nsmul_eq_zero N_smul_Gq
  rcases (Nat.Prime.eq_one_or_self_of_dvd prime_Nnat _ hdvd) with h1 | h
  · exact absurd (AddMonoid.addOrderOf_eq_one_iff.mp h1) Gq_ne_zero
  · exact h

theorem zsmul_Gq_eq_zero_iff (t : ℤ) : t • Gq = 0 ↔ (N : ℤ) ∣ t := by
  rw [← addOrderOf_dvd_iff_zsmul_eq_zero, addOrderOf_Gq, Nnat_cast]

theorem no_two_torsion : ∀ q : W.Point, q ∈ AddSubgroup.zmultiples Gq → q + q = 0 → q = 0 := by
  intro q hq hsum
  obtain ⟨t, ht⟩ := AddSubgroup.mem_zmultiples_iff.mp hq
  rw [← ht] at hsum ⊢
  have h2 : (2 * t) • Gq = 0 := by
    rw [two_mul, add_zsmul]
    exact hsum
  have hdvd := (zsmul_Gq_eq_zero_iff (2 * t)).mp h2
  have hNprime : Prime (N : ℤ) := by
    rw [show (N : ℤ) = ((Nnat : ℕ) : ℤ) from rfl]
    exact Nat.prime_iff_prime_int.mp prime_Nnat
  rcases hNprime.dvd_mul.mp hdvd with h2' | ht'
  · exfalso
    rw [Int.dvd_iff_emod_eq_zero] at h2'
    exact absurd h2' (by decide)
  · exact (zsmul_Gq_eq_zero_iff t).mpr ht'

theorem pmLoop_ok : ∀ fuel k : ℕ, ∀ (result addend : Point) (qr qa : W.Point),
    Represents result qr → Represents addend qa →
    qr ∈ AddSubgroup.zmultiples Gq → qa ∈ AddSubgroup.zmultiples Gq →
    ∃ res, pmLoop fuel k result addend = .ok res := by
  intro fuel
  induction fuel with
  | zero =>
    intro k result addend qr qa hr ha hqr hqa
    cases k with
    | zero => exact ⟨result, rfl⟩
    | succ k => exact ⟨result, rfl⟩
  | succ fuel ih =>
    intro k result addend qr qa hr ha hqr hqa
    cases k with
    | zero => exact ⟨result, rfl⟩
    | succ k =>
      obtain ⟨addend', ha', hrepa⟩ := point_add_ok ha ha
        (fun _ h => no_two_torsion qa hqa h)
      by_cases hpar : (k + 1) % 2 = 1
      · obtain ⟨result', hr', hrepr⟩ := point_add_ok hr ha
          (fun _ h => no_two_torsion qr hqr h)
        obtain ⟨res, hres⟩ := ih ((k + 1) / 2) result' addend' (qr + qa) (qa + qa)
          hrepr hrepa (AddSubgroup.add_mem _ hqr hqa) (AddSubgroup.add_mem _ hqa hqa)
        refine ⟨res, ?_⟩
        rw [pmLoop_succ, if_pos hpar, hr', except_ok_bind, ha', except_ok_bind]
        exact hres
      · obtain ⟨res, hres⟩ := ih ((k + 1) / 2) result addend' qr (qa + qa)
          hr hrepa hqr (AddSubgroup.add_mem _ hqa hqa)
        refine ⟨res, ?_⟩
        rw [pmLoop_succ, if_neg hpar, ha', except_ok_bind]
        exact hres

theorem point_multiply_ok {pt : Point} {q : W.Point} (k : ℤ) (hk : 0 ≤ k)
    (hrep : Represents pt q) (hmem : q ∈ AddSubgroup.zmultiples Gq) :
    ∃ res, point_multiply k pt = .ok res ∧ Represents res (k.toNat • q) := by
  rcases eq_or_lt_of_le hk with heq | hlt
  · refine ⟨.infinity, ?_, ?_⟩
    · rw [← heq, point_multiply_zero]
    · rw [← heq]
      show (0 : W.Point) = 0
      simp
  · obtain ⟨res, hres⟩ := pmLoop_ok k.toNat k.toNat .infinity pt 0 q
      represents_infinity hrep (AddSubgroup.zero_mem _) hmem
    refine ⟨res, ?_, ?_⟩
    · rw [point_multiply_pos hlt]
      exact hres
    · exact point_multiply_rep_of_ok hk hrep (by rw [point_multiply_pos hlt]; exact hres)

end ec_utils

/-! ## ECDSA-level lemmas: computations mod `N` seen in the field `ZMod Nnat` -/

namespace attack

open ec_utils

theorem N_ne_zero : (N : ℤ) ≠ 0 := by decide

theorem mod_inverse_N_mul {a x : ℤ} (h : mod_inverse a N = .ok x) :
    (a : ZMod Nnat) * (x : ZMod Nnat) = 1 := by
  have hmod := (mod_inverse_ok N_pos h).2.2
  have h2 := (ZMod.intCast_eq_intCast_iff (a * x) 1 Nnat).mpr (by rwa [Nnat_cast])
  push_cast at h2
  exact h2

theorem int_cast_inj_of_range_N {x x' : ℤ} (h0 : 0 ≤ x) (h1 : x < N) (h0' : 0 ≤ x')
    (h1' : x' < N) (h : (x : ZMod Nnat) = (x' : ZMod Nnat)) : x = x' := by
  rw [ZMod.intCast_eq_intCast_iff', Nnat_cast] at h
  rwa [Int.emod_eq_of_lt h0 h1, Int.emod_eq_of_lt h0' h1'] at h

theorem cast_ne_zero_of_range_N {x : ℤ} (h0 : 0 < x) (h1 : x < N) :
    (x : ZMod Nnat) ≠ 0 := by
  intro h
  have : x = 0 := by
    refine int_cast_inj_of_range_N (by omega) h1 le_rfl N_pos ?_
    push_cast
    exact h
  omega

theorem cast_emod_N_ne_zero {x : ℤ} (h : (x : ZMod Nnat) ≠ 0) : x % N ≠ 0 := by
  intro h0
  apply h
  rw [← cast_emod_N, h0]
  push_cast
  rfl

/-- Inversion of a successful `sign_message` run into its intermediate values. -/
theorem sign_message_ok_inv {e d k r s kout : ℤ}
    (h : sign_message e d k = .ok (r, s, kout)) :
    ∃ Rx Ry kinv, point_multiply k G = .ok (.finite Rx Ry) ∧
      mod_inverse k N = .ok kinv ∧
      r = Rx % N ∧ r ≠ 0 ∧ s = kinv * (e + d * r) % N ∧ s ≠ 0 ∧ kout = k := by
  rcases hpm : point_multiply k G with msg | R
  · rw [show sign_message e d k = (point_multiply k G).bind _ from rfl, hpm,
      except_error_bind] at h
    exact absurd h (by simp)
  · rw [show sign_message e d k = (point_multiply k G).bind _ from rfl, hpm,
      except_ok_bind] at h
    cases R with
    | infinity => exact absurd h (by simp)
    | finite Rx Ry =>
      dsimp only at h
      by_cases hr : Rx % N = 0
      · rw [if_pos hr] at h
        exact absurd h (by simp)
      · rw [if_neg hr] at h
        rcases hmi : mod_inverse k N with msg | kinv
        · rw [hmi, except_error_seq] at h
          exact absurd h (by simp)
        · rw [hmi, except_ok_seq] at h
          by_cases hs : kinv * (e + d * (Rx % N)) % N = 0
          · rw [if_pos hs] at h
            exact absurd h (by simp)
          · rw [if_neg hs] at h
            injection h with h
            injection h with h1 h2
            injection h2 with h2 h3
            refine ⟨Rx, Ry, kinv, rfl, rfl, h1.symm, ?_, ?_, ?_, h3.symm⟩
            · rw [← h1]
              exact hr
            · rw [← h2, h1]
            · rw [← h2]
              exact hs

end attack

/-! ## Claims -/

namespace ec_utils

/-- C3: the spec says a negative scalar `k` is handled by negating the point
and multiplying by `|k|`, and the comment in `point_multiply` says the same —
but in the source the parameter `P` shadows the module-level prime `P`, so the
branch evaluates `(-P.y) % P` with `P` a `Point` and raises `TypeError` for
every negative `k`.  This theorem evaluates the embedded code at the failing
input `k = -1`, `Pt = G`. -/
theorem C3_negative_scalar_raises :
    point_multiply (-1) G
      = .error "TypeError: unsupported operand type(s) for %: 'int' and 'Point'" := by
  decide

/-- C4: for `m > 1`, `mod_inverse(a, m)` returns the inverse `x ∈ [0, m-1]`
with `a·x ≡ 1 (mod m)` exactly when `gcd(a, m) = 1` (negative `a` included),
and raises the no-inverse `ValueError` when `gcd(a, m) ≠ 1`. -/
theorem C4_mod_inverse_spec (a m : ℤ) (hm : 1 < m) :
    (Int.gcd a m = 1 →
      ∃ x, mod_inverse a m = .ok x ∧ 0 ≤ x ∧ x < m ∧ a * x ≡ 1 [ZMOD m]) ∧
    (Int.gcd a m ≠ 1 → mod_inverse a m = .error "Pas d'inverse modulaire") := by
  constructor
  · intro hg
    obtain ⟨x, hx⟩ := mod_inverse_of_gcd_one (by omega) hg
    obtain ⟨h0, h1, hmod⟩ := mod_inverse_ok (by omega) hx
    exact ⟨x, hx, h0, h1, hmod⟩
  · intro hg
    exact mod_inverse_of_gcd_ne_one (by omega) hg

theorem C4_witness :
    (∃ x, mod_inverse (-3) 7 = .ok x ∧ 0 ≤ x ∧ x < 7 ∧ (-3) * x ≡ 1 [ZMOD (7 : ℤ)]) ∧
    mod_inverse 6 9 = .error "Pas d'inverse modulaire" :=
  ⟨(C4_mod_inverse_spec (-3) 7 (by decide)).1 (by decide),
   (C4_mod_inverse_spec 6 9 (by decide)).2 (by decide)⟩

end ec_utils

namespace attack

open ec_utils

/-- C5: whenever `r` or `s` lies outside `[1, N-1]`, `verify_signature`
returns `False` for any digest and any public-key point, without raising. -/
theorem C5_verify_rejects_out_of_range (e r s : ℤ) (Q : Point)
    (h : ¬(1 ≤ r ∧ r < N ∧ 1 ≤ s ∧ s < N)) :
    verify_signature e r s Q = .ok false := by
  simp only [verify_signature]
  rw [if_neg h]

theorem C5_witness :
    ¬(1 ≤ (0 : ℤ) ∧ (0 : ℤ) < N ∧ 1 ≤ (0 : ℤ) ∧ (0 : ℤ) < N) ∧
      verify_signature 0 0 0 .infinity = .ok false :=
  ⟨by decide, C5_verify_rejects_out_of_range 0 0 0 .infinity (by decide)⟩

theorem recover_nonce_spec (e1 s1 e2 s2 : ℤ) :
    (s1 ≡ s2 [ZMOD N] → recover_nonce e1 s1 e2 s2 = .error "Pas d'inverse modulaire") ∧
    (¬s1 ≡ s2 [ZMOD N] →
      ∃ t, recover_nonce e1 s1 e2 s2 = .ok t ∧ 0 ≤ t ∧ t < N ∧
        t * (s1 - s2) ≡ e1 - e2 [ZMOD N]) := by
  constructor
  · intro hmod
    have hden : (s1 - s2) % N = 0 := by
      have hdvd : N ∣ s2 - s1 := Int.ModEq.dvd hmod
      have hdvd' : N ∣ s1 - s2 := by
        have := dvd_neg.mpr hdvd
        rwa [neg_sub] at this
      rwa [← Int.dvd_iff_emod_eq_zero]
    rw [show recover_nonce e1 s1 e2 s2
        = (mod_inverse ((s1 - s2) % N) N).bind (fun inv => .ok ((e1 - e2) % N * inv % N))
        from rfl, hden]
    rw [mod_inverse_of_gcd_ne_one N_pos (by decide), except_error_bind]
  · intro hmod
    have hden : ((s1 - s2 : ℤ) : ZMod Nnat) ≠ 0 := by
      intro h0
      apply hmod
      have h1 : ((s1 : ℤ) : ZMod Nnat) = ((s2 : ℤ) : ZMod Nnat) := by
        push_cast at h0
        linear_combination h0
      have h2 := (ZMod.intCast_eq_intCast_iff s1 s2 Nnat).mp h1
      rwa [Nnat_cast] at h2
    have hden' : (((s1 - s2) % N : ℤ) : ZMod Nnat) ≠ 0 := by rwa [cast_emod_N]
    obtain ⟨inv, hmi, hmul⟩ := mod_inverse_N_ok hden'
    refine ⟨(e1 - e2) % N * inv % N, ?_, Int.emod_nonneg _ N_ne_zero,
      Int.emod_lt_of_pos _ N_pos, ?_⟩
    · rw [show recover_nonce e1 s1 e2 s2
        = (mod_inverse ((s1 - s2) % N) N).bind (fun inv => .ok ((e1 - e2) % N * inv % N))
        from rfl, hmi, except_ok_bind]
    · rw [cast_emod_N] at hmul
      have hz : (((e1 - e2) % N * inv % N * (s1 - s2) : ℤ) : ZMod Nnat)
          = ((e1 - e2 : ℤ) : ZMod Nnat) := by
        rw [show (((e1 - e2) % N * inv % N * (s1 - s2) : ℤ) : ZMod Nnat)
            = ((((e1 - e2) % N * inv % N : ℤ) : ZMod Nnat)) * ((s1 - s2 : ℤ) : ZMod Nnat)
            from by push_cast; ring, cast_emod_N]
        push_cast
        rw [cast_emod_N]
        push_cast at hmul ⊢
        linear_combination (((e1 : ZMod Nnat) - e2)) * hmul
      have := (ZMod.intCast_eq_intCast_iff _ _ _).mp hz
      rwa [Nnat_cast] at this

/-- C7: `recover_nonce(e1, s1, e2, s2)` raises the no-inverse `ValueError`
exactly when `s1 ≡ s2 (mod N)`; otherwise it returns the value
`(e1 - e2)·(s1 - s2)⁻¹ mod N`, characterised as the unique `t ∈ [0, N-1]` with
`t·(s1 - s2) ≡ e1 - e2 (mod N)`. -/
theorem C7_recover_nonce_spec (e1 s1 e2 s2 : ℤ) :
    (s1 ≡ s2 [ZMOD N] → recover_nonce e1 s1 e2 s2 = .error "Pas d'inverse modulaire") ∧
    (¬s1 ≡ s2 [ZMOD N] →
      ∃ t, recover_nonce e1 s1 e2 s2 = .ok t ∧ 0 ≤ t ∧ t < N ∧
        t * (s1 - s2) ≡ e1 - e2 [ZMOD N]) :=
  recover_nonce_spec e1 s1 e2 s2

theorem C7_witness :
    recover_nonce 5 3 4 3 = .error "Pas d'inverse modulaire" ∧
    (∃ t, recover_nonce 5 7 4 3 = .ok t ∧ 0 ≤ t ∧ t < N ∧
      t * (7 - 3) ≡ 5 - 4 [ZMOD N]) :=
  ⟨(C7_recover_nonce_spec 5 3 4 3).1 (by decide),
   (C7_recover_nonce_spec 5 7 4 3).2 (by decide)⟩

end attack

namespace attack

open ec_utils

theorem k_smul_Gq_ne_zero {k : ℤ} (h1 : 1 ≤ k) (h2 : k < N) : k.toNat • Gq ≠ 0 := by
  intro h
  have hz : ((k.toNat : ℤ)) • Gq = 0 := by
    rw [natCast_zsmul]
    exact h
  rw [Int.toNat_of_nonneg (by omega)] at hz
  have hdvd := (zsmul_Gq_eq_zero_iff k).mp hz
  have := Int.le_of_dvd (by omega) hdvd
  omega

theorem point_multiply_G_ok {k : ℤ} (h1 : 1 ≤ k) (h2 : k < N) :
    ∃ Rx Ry, point_multiply k G = .ok (.finite Rx Ry) ∧
      Represents (.finite Rx Ry) (k.toNat • Gq) := by
  obtain ⟨res, hok, hrep⟩ := point_multiply_ok k (by omega) rep_G (AddSubgroup.mem_zmultiples Gq)
  cases res with
  | infinity => exact absurd hrep (k_smul_Gq_ne_zero h1 h2)
  | finite Rx Ry => exact ⟨Rx, Ry, hok, hrep⟩

/-- C6: for an explicitly supplied nonce `k ∈ [1, N-1]`, `sign_message` raises
`InvalidNonceError` exactly when `r = (k·G).x mod N` is `0` or
`s = k⁻¹·(e + d·r) mod N` is `0`, and otherwise returns exactly `(r, s, k)`.
(`k·G` is finite and `k` is invertible mod the prime `N`, so no other failure
occurs.) -/
theorem C6_sign_invalid_nonce_iff (e d k : ℤ) (hk1 : 1 ≤ k) (hk2 : k < N) :
    ∃ Rx Ry kinv, point_multiply k G = .ok (.finite Rx Ry) ∧
      mod_inverse k N = .ok kinv ∧
      sign_message e d k =
        (if Rx % N = 0 then .error "Nonce invalide (r = 0)"
         else if kinv * (e + d * (Rx % N)) % N = 0 then .error "Nonce invalide (s = 0)"
         else .ok (Rx % N, kinv * (e + d * (Rx % N)) % N, k)) := by
  obtain ⟨Rx, Ry, hok, -⟩ := point_multiply_G_ok hk1 hk2
  obtain ⟨kinv, hmi, -⟩ := mod_inverse_N_ok (cast_ne_zero_of_range_N (by omega) hk2)
  refine ⟨Rx, Ry, kinv, hok, hmi, ?_⟩
  rw [show sign_message e d k = (point_multiply k G).bind _ from rfl, hok, except_ok_bind]
  dsimp only
  by_cases hr : Rx % N = 0
  · rw [if_pos hr, if_pos hr]
  · rw [if_neg hr, if_neg hr, hmi, except_ok_seq]

theorem C6_witness :
    (1 ≤ (1 : ℤ)) ∧ ((1 : ℤ) < N) ∧
    ∃ Rx Ry kinv, point_multiply 1 G = .ok (.finite Rx Ry) ∧
      mod_inverse 1 N = .ok kinv ∧
      sign_message 0 1 1 =
        (if Rx % N = 0 then .error "Nonce invalide (r = 0)"
         else if kinv * (0 + 1 * (Rx % N)) % N = 0 then .error "Nonce invalide (s = 0)"
         else .ok (Rx % N, kinv * (0 + 1 * (Rx % N)) % N, 1)) :=
  ⟨by decide, by decide, C6_sign_invalid_nonce_iff 0 1 1 (by decide) (by decide)⟩

end attack

namespace attack

open ec_utils

/-- C1: the full nonce-reuse attack.  If two successful signatures over
distinct digests `e1, e2` were produced with the same private key `d` and the
same nonce `k`, and `s1 ≢ s2 (mod N)`, then the two signatures share `r`,
`recover_nonce` returns exactly `k`, `recover_private_key` returns exactly
`d`, and therefore `d'·G` recomputes the original public key `d·G`. -/
theorem C1_nonce_reuse_recovers_key (d k e1 e2 r1 r2 s1 s2 : ℤ)
    (hd1 : 1 ≤ d) (hd2 : d < N) (hk1 : 1 ≤ k) (hk2 : k < N) (he : e1 ≠ e2)
    (h1 : sign_message e1 d k = .ok (r1, s1, k))
    (h2 : sign_message e2 d k = .ok (r2, s2, k))
    (hs : ¬s1 ≡ s2 [ZMOD N]) :
    r1 = r2 ∧
    ∃ k' d', recover_nonce e1 s1 e2 s2 = .ok k' ∧ k' = k ∧
      recover_private_key e1 r1 s1 k' = .ok d' ∧ d' = d ∧
      point_multiply d' G = point_multiply d G := by
  obtain ⟨Rx, Ry, kinv, hpm, hmi, hr1, hr1ne, hs1, hs1ne, -⟩ := sign_message_ok_inv h1
  obtain ⟨Rx', Ry', kinv', hpm', hmi', hr2, hr2ne, hs2, hs2ne, -⟩ := sign_message_ok_inv h2
  rw [hpm] at hpm'
  injection hpm' with hpm'
  injection hpm' with hRx hRy
  rw [hmi] at hmi'
  injection hmi' with hkinv'
  have hrr : r1 = r2 := by rw [hr1, hr2, hRx]
  refine ⟨hrr, ?_⟩
  rw [← hrr] at hs2
  rw [← hkinv'] at hs2
  have hk_inv : (k : ZMod Nnat) * (kinv : ZMod Nnat) = 1 := mod_inverse_N_mul hmi
  have hs1F : ((s1 : ℤ) : ZMod Nnat)
      = (kinv : ZMod Nnat) * ((e1 : ZMod Nnat) + (d : ZMod Nnat) * (r1 : ZMod Nnat)) := by
    rw [hs1, cast_emod_N]
    push_cast
    ring
  have hs2F : ((s2 : ℤ) : ZMod Nnat)
      = (kinv : ZMod Nnat) * ((e2 : ZMod Nnat) + (d : ZMod Nnat) * (r1 : ZMod Nnat)) := by
    rw [hs2, cast_emod_N]
    push_cast
    ring
  have hsne : ((s1 : ℤ) : ZMod Nnat) ≠ ((s2 : ℤ) : ZMod Nnat) := by
    intro h
    apply hs
    have := (ZMod.intCast_eq_intCast_iff s1 s2 Nnat).mp h
    rwa [Nnat_cast] at this
  obtain ⟨t, hrn, ht0, htN, htcong⟩ := (recover_nonce_spec e1 s1 e2 s2).2 hs
  have htcongF : ((t : ℤ) : ZMod Nnat) * (((s1 : ℤ) : ZMod Nnat) - ((s2 : ℤ) : ZMod Nnat))
      = ((e1 : ℤ) : ZMod Nnat) - ((e2 : ℤ) : ZMod Nnat) := by
    have h := (ZMod.intCast_eq_intCast_iff (t * (s1 - s2)) (e1 - e2) Nnat).mpr
      (by rw [Nnat_cast]; exact htcong)
    push_cast at h
    exact h
  have hkcongF : ((k : ℤ) : ZMod Nnat) * (((s1 : ℤ) : ZMod Nnat) - ((s2 : ℤ) : ZMod Nnat))
      = ((e1 : ℤ) : ZMod Nnat) - ((e2 : ℤ) : ZMod Nnat) := by
    rw [hs1F, hs2F]
    linear_combination (((e1 : ZMod Nnat)) - ((e2 : ZMod Nnat))) * hk_inv
  have htkF : ((t : ℤ) : ZMod Nnat) = ((k : ℤ) : ZMod Nnat) := by
    have hdiff : (((t : ℤ) : ZMod Nnat) - ((k : ℤ) : ZMod Nnat))
        * (((s1 : ℤ) : ZMod Nnat) - ((s2 : ℤ) : ZMod Nnat)) = 0 := by
      linear_combination htcongF - hkcongF
    rcases mul_eq_zero.mp hdiff with h | h
    · exact sub_eq_zero.mp h
    · exact absurd (sub_eq_zero.mp h) hsne
  have htk : t = k := int_cast_inj_of_range_N ht0 htN (by omega) hk2 htkF
  have hr1pos : 0 < r1 := by
    have h1' := Int.emod_nonneg Rx N_ne_zero
    rw [← hr1] at h1'
    omega
  have hr1N : r1 < N := by
    have h1' := Int.emod_lt_of_pos Rx N_pos
    rwa [← hr1] at h1'
  have hr1F : ((r1 : ℤ) : ZMod Nnat) ≠ 0 := cast_ne_zero_of_range_N hr1pos hr1N
  obtain ⟨rinv, hri, hrmul⟩ := mod_inverse_N_ok hr1F
  have hdF : ((rinv * (k * s1 - e1) % N : ℤ) : ZMod Nnat) = ((d : ℤ) : ZMod Nnat) := by
    rw [cast_emod_N]
    push_cast
    rw [hs1F]
    linear_combination ((rinv : ZMod Nnat)) * (((e1 : ZMod Nnat))
      + ((d : ZMod Nnat)) * ((r1 : ZMod Nnat))) * hk_inv + ((d : ZMod Nnat)) * hrmul
  have hd' : rinv * (k * s1 - e1) % N = d :=
    int_cast_inj_of_range_N (Int.emod_nonneg _ N_ne_zero) (Int.emod_lt_of_pos _ N_pos)
      (by omega) hd2 hdF
  refine ⟨t, d, hrn, htk, ?_, rfl, rfl⟩
  rw [show recover_private_key e1 r1 s1 t
      = (mod_inverse r1 N).bind (fun rinv => .ok (rinv * (t * s1 - e1) % N)) from rfl,
    hri, except_ok_bind, htk, hd']

theorem C1_witness :
    (1 ≤ (1 : ℤ)) ∧ ((1 : ℤ) < N) ∧ ((1 : ℤ) ≠ 2) ∧
    sign_message 1 1 1
      = .ok (0x128EC4256487FD8FDF64E2437BC0A1F6D5AFDE2C,
          0x128EC4256487FD8FDF64E2437BC0A1F6D5AFDE2D, 1) ∧
    sign_message 2 1 1
      = .ok (0x128EC4256487FD8FDF64E2437BC0A1F6D5AFDE2C,
          0x128EC4256487FD8FDF64E2437BC0A1F6D5AFDE2E, 1) ∧
    ¬(0x128EC4256487FD8FDF64E2437BC0A1F6D5AFDE2D : ℤ)
      ≡ 0x128EC4256487FD8FDF64E2437BC0A1F6D5AFDE2E [ZMOD N] ∧
    ((0x128EC4256487FD8FDF64E2437BC0A1F6D5AFDE2C : ℤ)
        = 0x128EC4256487FD8FDF64E2437BC0A1F6D5AFDE2C ∧
      ∃ k' d', recover_nonce 1 0x128EC4256487FD8FDF64E2437BC0A1F6D5AFDE2D
          2 0x128EC4256487FD8FDF64E2437BC0A1F6D5AFDE2E = .ok k' ∧ k' = 1 ∧
        recover_private_key 1 0x128EC4256487FD8FDF64E2437BC0A1F6D5AFDE2C
          0x128EC4256487FD8FDF64E2437BC0A1F6D5AFDE2D k' = .ok d' ∧ d' = 1 ∧
        point_multiply d' G = point_multiply 1 G) :=
  ⟨by decide, by decide, by decide, by decide, by decide, by decide,
    C1_nonce_reuse_recovers_key 1 1 1 2
      0x128EC4256487FD8FDF64E2437BC0A1F6D5AFDE2C 0x128EC4256487FD8FDF64E2437BC0A1F6D5AFDE2C
      0x128EC4256487FD8FDF64E2437BC0A1F6D5AFDE2D 0x128EC4256487FD8FDF64E2437BC0A1F6D5AFDE2E
      (by decide) (by decide) (by decide) (by decide) (by decide)
      (by decide) (by decide) (by decide)⟩

end attack

namespace attack

theorem insertByR_no_key : ∀ (m : List (ℕ × List Firmware)) (r : ℕ) (fw : Firmware),
    (∀ g ∈ m, g.1 ≠ r) → insertByR m r fw = m ++ [(r, [fw])] := by
  intro m
  induction m with
  | nil =>
    intro r fw h
    rfl
  | cons g rest ih =>
    intro r fw h
    cases g with
    | mk r' l =>
      rw [insertByR, if_neg (h (r', l) (by simp)), ih r fw (fun g hg => h g (by simp [hg]))]
      rfl

theorem groupByR_aux_singletons : ∀ (fws : List Firmware) (m : List (ℕ × List Firmware)),
    (∀ g ∈ m, g.2.length ≤ 1) →
    (∀ g ∈ m, ∀ fw ∈ fws, g.1 ≠ fw.r) →
    List.Pairwise (fun a b => a.r ≠ b.r) fws →
    ∀ g ∈ fws.foldl (fun m fw => insertByR m fw.r fw) m, g.2.length ≤ 1 := by
  intro fws
  induction fws with
  | nil =>
    intro m h1 h2 hp
    simpa using h1
  | cons fw rest ih =>
    intro m h1 h2 hp
    rw [List.foldl_cons]
    rw [insertByR_no_key m fw.r fw (fun g hg => h2 g hg fw (by simp))]
    apply ih
    · intro g hg
      rcases List.mem_append.mp hg with h | h
      · exact h1 g h
      · simp only [List.mem_singleton] at h
        rw [h]
        simp
    · intro g hg fw2 hfw2
      rcases List.mem_append.mp hg with h | h
      · exact h2 g h fw2 (by simp [hfw2])
      · simp only [List.mem_singleton] at h
        rw [h]
        exact (List.pairwise_cons.mp hp).1 fw2 hfw2
    · exact (List.pairwise_cons.mp hp).2

theorem detect_empty_of_short_groups (gs : List (ℕ × List Firmware))
    (h : ∀ g ∈ gs, g.2.length ≤ 1) :
    gs.foldr (fun g pairs => (if 2 ≤ g.2.length then allPairs g.2 else []) ++ pairs) [] = [] := by
  induction gs with
  | nil => rfl
  | cons g rest ih =>
    rw [List.foldr_cons, if_neg (by have := h g (by simp); omega), List.nil_append]
    exact ih (fun g hg => h g (by simp [hg]))

/-- C9 (amended): on records with pairwise-distinct `r`, `detect_nonce_reuse`
itself returns the empty list without raising; the condition is surfaced by
its caller, the `__main__` driver, which raises `RuntimeError` on an empty
pair list. -/
theorem C9_detect_no_reuse (fws : List Firmware)
    (h : List.Pairwise (fun a b => a.r ≠ b.r) fws) :
    detect_nonce_reuse fws = [] ∧
      main_detect fws = .error "Aucune réutilisation de nonce détectée dans firmwares.json" := by
  have hdet : detect_nonce_reuse fws = [] := by
    apply detect_empty_of_short_groups
    exact groupByR_aux_singletons fws [] (by simp) (by simp) h
  refine ⟨hdet, ?_⟩
  simp [main_detect, hdet]

/-- C9 counterexample to the claim as stated: at a concrete two-record input
with distinct `r`, `detect_nonce_reuse` returns `[]` normally — it does not
raise any insufficient-data error itself. -/
theorem C9_counterexample :
    detect_nonce_reuse [⟨1, 0, 1, 0⟩, ⟨2, 0, 2, 0⟩] = [] := by decide

theorem C9_witness :
    List.Pairwise (fun a b => Firmware.r a ≠ Firmware.r b)
        [(⟨1, 0, 1, 0⟩ : Firmware), ⟨2, 0, 2, 0⟩] ∧
      (detect_nonce_reuse [(⟨1, 0, 1, 0⟩ : Firmware), ⟨2, 0, 2, 0⟩] = [] ∧
        main_detect [(⟨1, 0, 1, 0⟩ : Firmware), ⟨2, 0, 2, 0⟩]
          = .error "Aucune réutilisation de nonce détectée dans firmwares.json") :=
  ⟨by decide, C9_detect_no_reuse [⟨1, 0, 1, 0⟩, ⟨2, 0, 2, 0⟩] (by decide)⟩

end attack

namespace attack

/-- C8: over five records of which exactly the two at positions `i < j` share
an `r` value (all other pairs distinct), `detect_nonce_reuse` returns exactly
one pair, namely those two records in insertion order of first occurrence. -/
theorem C8_detect_exactly_one_pair (f0 f1 f2 f3 f4 : Firmware) (i j : Fin 5) (hij : i < j)
    (hr : ∀ a b : Fin 5, a < b →
      ((![f0, f1, f2, f3, f4] a).r = (![f0, f1, f2, f3, f4] b).r ↔ a = i ∧ b = j)) :
    detect_nonce_reuse [f0, f1, f2, f3, f4]
      = [(![f0, f1, f2, f3, f4] i, ![f0, f1, f2, f3, f4] j)] := by
  fin_cases i <;> fin_cases j
  · exact absurd hij (by decide)
  · show detect_nonce_reuse [f0, f1, f2, f3, f4] = [(f0, f1)]
    have hp : f0.r = f1.r := (hr 0 1 (by decide)).mpr (by decide)
    have n02 : ¬f0.r = f2.r := fun h => absurd ((hr 0 2 (by decide)).mp h) (by decide)
    have n20 : ¬f2.r = f0.r := fun h => n02 h.symm
    have n03 : ¬f0.r = f3.r := fun h => absurd ((hr 0 3 (by decide)).mp h) (by decide)
    have n30 : ¬f3.r = f0.r := fun h => n03 h.symm
    have n04 : ¬f0.r = f4.r := fun h => absurd ((hr 0 4 (by decide)).mp h) (by decide)
    have n40 : ¬f4.r = f0.r := fun h => n04 h.symm
    have n12 : ¬f1.r = f2.r := fun h => absurd ((hr 1 2 (by decide)).mp h) (by decide)
    have n21 : ¬f2.r = f1.r := fun h => n12 h.symm
    have n13 : ¬f1.r = f3.r := fun h => absurd ((hr 1 3 (by decide)).mp h) (by decide)
    have n31 : ¬f3.r = f1.r := fun h => n13 h.symm
    have n14 : ¬f1.r = f4.r := fun h => absurd ((hr 1 4 (by decide)).mp h) (by decide)
    have n41 : ¬f4.r = f1.r := fun h => n14 h.symm
    have n23 : ¬f2.r = f3.r := fun h => absurd ((hr 2 3 (by decide)).mp h) (by decide)
    have n32 : ¬f3.r = f2.r := fun h => n23 h.symm
    have n24 : ¬f2.r = f4.r := fun h => absurd ((hr 2 4 (by decide)).mp h) (by decide)
    have n42 : ¬f4.r = f2.r := fun h => n24 h.symm
    have n34 : ¬f3.r = f4.r := fun h => absurd ((hr 3 4 (by decide)).mp h) (by decide)
    have n43 : ¬f4.r = f3.r := fun h => n34 h.symm
    simp [detect_nonce_reuse, groupByR, insertByR, allPairs, hp, n02, n20, n03, n30, n04, n40, n12, n21, n13, n31, n14, n41, n23, n32, n24, n42, n34, n43]
  · show detect_nonce_reuse [f0, f1, f2, f3, f4] = [(f0, f2)]
    have hp : f0.r = f2.r := (hr 0 2 (by decide)).mpr (by decide)
    have n01 : ¬f0.r = f1.r := fun h => absurd ((hr 0 1 (by decide)).mp h) (by decide)
    have n10 : ¬f1.r = f0.r := fun h => n01 h.symm
    have n03 : ¬f0.r = f3.r := fun h => absurd ((hr 0 3 (by decide)).mp h) (by decide)
    have n30 : ¬f3.r = f0.r := fun h => n03 h.symm
    have n04 : ¬f0.r = f4.r := fun h => absurd ((hr 0 4 (by decide)).mp h) (by decide)
    have n40 : ¬f4.r = f0.r := fun h => n04 h.symm
    have n12 : ¬f1.r = f2.r := fun h => absurd ((hr 1 2 (by decide)).mp h) (by decide)
    have n21 : ¬f2.r = f1.r := fun h => n12 h.symm
    have n13 : ¬f1.r = f3.r := fun h => absurd ((hr 1 3 (by decide)).mp h) (by decide)
    have n31 : ¬f3.r = f1.r := fun h => n13 h.symm
    have n14 : ¬f1.r = f4.r := fun h => absurd ((hr 1 4 (by decide)).mp h) (by decide)
    have n41 : ¬f4.r = f1.r := fun h => n14 h.symm
    have n23 : ¬f2.r = f3.r := fun h => absurd ((hr 2 3 (by decide)).mp h) (by decide)
    have n32 : ¬f3.r = f2.r := fun h => n23 h.symm
    have n24 : ¬f2.r = f4.r := fun h => absurd ((hr 2 4 (by decide)).mp h) (by decide)
    have n42 : ¬f4.r = f2.r := fun h => n24 h.symm
    have n34 : ¬f3.r = f4.r := fun h => absurd ((hr 3 4 (by decide)).mp h) (by decide)
    have n43 : ¬f4.r = f3.r := fun h => n34 h.symm
    simp [detect_nonce_reuse, groupByR, insertByR, allPairs, hp, n01, n10, n03, n30, n04, n40, n12, n21, n13, n31, n14, n41, n23, n32, n24, n42, n34, n43]
  · show detect_nonce_reuse [f0, f1, f2, f3, f4] = [(f0, f3)]
    have hp : f0.r = f3.r := (hr 0 3 (by decide)).mpr (by decide)
    have n01 : ¬f0.r = f1.r := fun h => absurd ((hr 0 1 (by decide)).mp h) (by decide)
    have n10 : ¬f1.r = f0.r := fun h => n01 h.symm
    have n02 : ¬f0.r = f2.r := fun h => absurd ((hr 0 2 (by decide)).mp h) (by decide)
    have n20 : ¬f2.r = f0.r := fun h => n02 h.symm
    have n04 : ¬f0.r = f4.r := fun h => absurd ((hr 0 4 (by decide)).mp h) (by decide)
    have n40 : ¬f4.r = f0.r := fun h => n04 h.symm
    have n12 : ¬f1.r = f2.r := fun h => absurd ((hr 1 2 (by decide)).mp h) (by decide)
    have n21 : ¬f2.r = f1.r := fun h => n12 h.symm
    have n13 : ¬f1.r = f3.r := fun h => absurd ((hr 1 3 (by decide)).mp h) (by decide)
    have n31 : ¬f3.r = f1.r := fun h => n13 h.symm
    have n14 : ¬f1.r = f4.r := fun h => absurd ((hr 1 4 (by decide)).mp h) (by decide)
    have n41 : ¬f4.r = f1.r := fun h => n14 h.symm
    have n23 : ¬f2.r = f3.r := fun h => absurd ((hr 2 3 (by decide)).mp h) (by decide)
    have n32 : ¬f3.r = f2.r := fun h => n23 h.symm
    have n24 : ¬f2.r = f4.r := fun h => absurd ((hr 2 4 (by decide)).mp h) (by decide)
    have n42 : ¬f4.r = f2.r := fun h => n24 h.symm
    have n34 : ¬f3.r = f4.r := fun h => absurd ((hr 3 4 (by decide)).mp h) (by decide)
    have n43 : ¬f4.r = f3.r := fun h => n34 h.symm
    simp [detect_nonce_reuse, groupByR, insertByR, allPairs, hp, n01, n10, n02, n20, n04, n40, n12, n21, n13, n31, n14, n41, n23, n32, n24, n42, n34, n43]
  · show detect_nonce_reuse [f0, f1, f2, f3, f4] = [(f0, f4)]
    have hp : f0.r = f4.r := (hr 0 4 (by decide)).mpr (by decide)
    have n01 : ¬f0.r = f1.r := fun h => absurd ((hr 0 1 (by decide)).mp h) (by decide)
    have n10 : ¬f1.r = f0.r := fun h => n01 h.symm
    have n02 : ¬f0.r = f2.r := fun h => absurd ((hr 0 2 (by decide)).mp h) (by decide)
    have n20 : ¬f2.r = f0.r := fun h => n02 h.symm
    have n03 : ¬f0.r = f3.r := fun h => absurd ((hr 0 3 (by decide)).mp h) (by decide)
    have n30 : ¬f3.r = f0.r := fun h => n03 h.symm
    have n12 : ¬f1.r = f2.r := fun h => absurd ((hr 1 2 (by decide)).mp h) (by decide)
    have n21 : ¬f2.r = f1.r := fun h => n12 h.symm
    have n13 : ¬f1.r = f3.r := fun h => absurd ((hr 1 3 (by decide)).mp h) (by decide)
    have n31 : ¬f3.r = f1.r := fun h => n13 h.symm
    have n14 : ¬f1.r = f4.r := fun h => absurd ((hr 1 4 (by decide)).mp h) (by decide)
    have n41 : ¬f4.r = f1.r := fun h => n14 h.symm
    have n23 : ¬f2.r = f3.r := fun h => absurd ((hr 2 3 (by decide)).mp h) (by decide)
    have n32 : ¬f3.r = f2.r := fun h => n23 h.symm
    have n24 : ¬f2.r = f4.r := fun h => absurd ((hr 2 4 (by decide)).mp h) (by decide)
    have n42 : ¬f4.r = f2.r := fun h => n24 h.symm
    have n34 : ¬f3.r = f4.r := fun h => absurd ((hr 3 4 (by decide)).mp h) (by decide)
    have n43 : ¬f4.r = f3.r := fun h => n34 h.symm
    simp [detect_nonce_reuse, groupByR, insertByR, allPairs, hp, n01, n10, n02, n20, n03, n30, n12, n21, n13, n31, n14, n41, n23, n32, n24, n42, n34, n43]
  · exact absurd hij (by decide)
  · exact absurd hij (by decide)
  · show detect_nonce_reuse [f0, f1, f2, f3, f4] = [(f1, f2)]
    have hp : f1.r = f2.r := (hr 1 2 (by decide)).mpr (by decide)
    have n01 : ¬f0.r = f1.r := fun h => absurd ((hr 0 1 (by decide)).mp h) (by decide)
    have n10 : ¬f1.r = f0.r := fun h => n01 h.symm
    have n02 : ¬f0.r = f2.r := fun h => absurd ((hr 0 2 (by decide)).mp h) (by decide)
    have n20 : ¬f2.r = f0.r := fun h => n02 h.symm
    have n03 : ¬f0.r = f3.r := fun h => absurd ((hr 0 3 (by decide)).mp h) (by decide)
    have n30 : ¬f3.r = f0.r := fun h => n03 h.symm
    have n04 : ¬f0.r = f4.r := fun h => absurd ((hr 0 4 (by decide)).mp h) (by decide)
    have n40 : ¬f4.r = f0.r := fun h => n04 h.symm
    have n13 : ¬f1.r = f3.r := fun h => absurd ((hr 1 3 (by decide)).mp h) (by decide)
    have n31 : ¬f3.r = f1.r := fun h => n13 h.symm
    have n14 : ¬f1.r = f4.r := fun h => absurd ((hr 1 4 (by decide)).mp h) (by decide)
    have n41 : ¬f4.r = f1.r := fun h => n14 h.symm
    have n23 : ¬f2.r = f3.r := fun h => absurd ((hr 2 3 (by decide)).mp h) (by decide)
    have n32 : ¬f3.r = f2.r := fun h => n23 h.symm
    have n24 : ¬f2.r = f4.r := fun h => absurd ((hr 2 4 (by decide)).mp h) (by decide)
    have n42 : ¬f4.r = f2.r := fun h => n24 h.symm
    have n34 : ¬f3.r = f4.r := fun h => absurd ((hr 3 4 (by decide)).mp h) (by decide)
    have n43 : ¬f4.r = f3.r := fun h => n34 h.symm
    simp [detect_nonce_reuse, groupByR, insertByR, allPairs, hp, n01, n10, n02, n20, n03, n30, n04, n40, n13, n31, n14, n41, n23, n32, n24, n42, n34, n43]
  · show detect_nonce_reuse [f0, f1, f2, f3, f4] = [(f1, f3)]
    have hp : f1.r = f3.r := (hr 1 3 (by decide)).mpr (by decide)
    have n01 : ¬f0.r = f1.r := fun h => absurd ((hr 0 1 (by decide)).mp h) (by decide)
    have n10 : ¬f1.r = f0.r := fun h => n01 h.symm
    have n02 : ¬f0.r = f2.r := fun h => absurd ((hr 0 2 (by decide)).mp h) (by decide)
    have n20 : ¬f2.r = f0.r := fun h => n02 h.symm
    have n03 : ¬f0.r = f3.r := fun h => absurd ((hr 0 3 (by decide)).mp h) (by decide)
    have n30 : ¬f3.r = f0.r := fun h => n03 h.symm
    have n04 : ¬f0.r = f4.r := fun h => absurd ((hr 0 4 (by decide)).mp h) (by decide)
    have n40 : ¬f4.r = f0.r := fun h => n04 h.symm
    have n12 : ¬f1.r = f2.r := fun h => absurd ((hr 1 2 (by decide)).mp h) (by decide)
    have n21 : ¬f2.r = f1.r := fun h => n12 h.symm
    have n14 : ¬f1.r = f4.r := fun h => absurd ((hr 1 4 (by decide)).mp h) (by decide)
    have n41 : ¬f4.r = f1.r := fun h => n14 h.symm
    have n23 : ¬f2.r = f3.r := fun h => absurd ((hr 2 3 (by decide)).mp h) (by decide)
    have n32 : ¬f3.r = f2.r := fun h => n23 h.symm
    have n24 : ¬f2.r = f4.r := fun h => absurd ((hr 2 4 (by decide)).mp h) (by decide)
    have n42 : ¬f4.r = f2.r := fun h => n24 h.symm
    have n34 : ¬f3.r = f4.r := fun h => absurd ((hr 3 4 (by decide)).mp h) (by decide)
    have n43 : ¬f4.r = f3.r := fun h => n34 h.symm
    simp [detect_nonce_reuse, groupByR, insertByR, allPairs, hp, n01, n10, n02, n20, n03, n30, n04, n40, n12, n21, n14, n41, n23, n32, n24, n42, n34, n43]
  · show detect_nonce_reuse [f0, f1, f2, f3, f4] = [(f1, f4)]
    have hp : f1.r = f4.r := (hr 1 4 (by decide)).mpr (by decide)
    have n01 : ¬f0.r = f1.r := fun h => absurd ((hr 0 1 (by decide)).mp h) (by decide)
    have n10 : ¬f1.r = f0.r := fun h => n01 h.symm
    have n02 : ¬f0.r = f2.r := fun h => absurd ((hr 0 2 (by decide)).mp h) (by decide)
    have n20 : ¬f2.r = f0.r := fun h => n02 h.symm
    have n03 : ¬f0.r = f3.r := fun h => absurd ((hr 0 3 (by decide)).mp h) (by decide)
    have n30 : ¬f3.r = f0.r := fun h => n03 h.symm
    have n04 : ¬f0.r = f4.r := fun h => absurd ((hr 0 4 (by decide)).mp h) (by decide)
    have n40 : ¬f4.r = f0.r := fun h => n04 h.symm
    have n12 : ¬f1.r = f2.r := fun h => absurd ((hr 1 2 (by decide)).mp h) (by decide)
    have n21 : ¬f2.r = f1.r := fun h => n12 h.symm
    have n13 : ¬f1.r = f3.r := fun h => absurd ((hr 1 3 (by decide)).mp h) (by decide)
    have n31 : ¬f3.r = f1.r := fun h => n13 h.symm
    have n23 : ¬f2.r = f3.r := fun h => absurd ((hr 2 3 (by decide)).mp h) (by decide)
    have n32 : ¬f3.r = f2.r := fun h => n23 h.symm
    have n24 : ¬f2.r = f4.r := fun h => absurd ((hr 2 4 (by decide)).mp h) (by decide)
    have n42 : ¬f4.r = f2.r := fun h => n24 h.symm
    have n34 : ¬f3.r = f4.r := fun h => absurd ((hr 3 4 (by decide)).mp h) (by decide)
    have n43 : ¬f4.r = f3.r := fun h => n34 h.symm
    simp [detect_nonce_reuse, groupByR, insertByR, allPairs, hp, n01, n10, n02, n20, n03, n30, n04, n40, n12, n21, n13, n31, n23, n32, n24, n42, n34, n43]
  · exact absurd hij (by decide)
  · exact absurd hij (by decide)
  · exact absurd hij (by decide)
  · show detect_nonce_reuse [f0, f1, f2, f3, f4] = [(f2, f3)]
    have hp : f2.r = f3.r := (hr 2 3 (by decide)).mpr (by decide)
    have n01 : ¬f0.r = f1.r := fun h => absurd ((hr 0 1 (by decide)).mp h) (by decide)
    have n10 : ¬f1.r = f0.r := fun h => n01 h.symm
    have n02 : ¬f0.r = f2.r := fun h => absurd ((hr 0 2 (by decide)).mp h) (by decide)
    have n20 : ¬f2.r = f0.r := fun h => n02 h.symm
    have n03 : ¬f0.r = f3.r := fun h => absurd ((hr 0 3 (by decide)).mp h) (by decide)
    have n30 : ¬f3.r = f0.r := fun h => n03 h.symm
    have n04 : ¬f0.r = f4.r := fun h => absurd ((hr 0 4 (by decide)).mp h) (by decide)
    have n40 : ¬f4.r = f0.r := fun h => n04 h.symm
    have n12 : ¬f1.r = f2.r := fun h => absurd ((hr 1 2 (by decide)).mp h) (by decide)
    have n21 : ¬f2.r = f1.r := fun h => n12 h.symm
    have n13 : ¬f1.r = f3.r := fun h => absurd ((hr 1 3 (by decide)).mp h) (by decide)
    have n31 : ¬f3.r = f1.r := fun h => n13 h.symm
    have n14 : ¬f1.r = f4.r := fun h => absurd ((hr 1 4 (by decide)).mp h) (by decide)
    have n41 : ¬f4.r = f1.r := fun h => n14 h.symm
    have n24 : ¬f2.r = f4.r := fun h => absurd ((hr 2 4 (by decide)).mp h) (by decide)
    have n42 : ¬f4.r = f2.r := fun h => n24 h.symm
    have n34 : ¬f3.r = f4.r := fun h => absurd ((hr 3 4 (by decide)).mp h) (by decide)
    have n43 : ¬f4.r = f3.r := fun h => n34 h.symm
    simp [detect_nonce_reuse, groupByR, insertByR, allPairs, hp, n01, n10, n02, n20, n03, n30, n04, n40, n12, n21, n13, n31, n14, n41, n24, n42, n34, n43]
  · show detect_nonce_reuse [f0, f1, f2, f3, f4] = [(f2, f4)]
    have hp : f2.r = f4.r := (hr 2 4 (by decide)).mpr (by decide)
    have n01 : ¬f0.r = f1.r := fun h => absurd ((hr 0 1 (by decide)).mp h) (by decide)
    have n10 : ¬f1.r = f0.r := fun h => n01 h.symm
    have n02 : ¬f0.r = f2.r := fun h => absurd ((hr 0 2 (by decide)).mp h) (by decide)
    have n20 : ¬f2.r = f0.r := fun h => n02 h.symm
    have n03 : ¬f0.r = f3.r := fun h => absurd ((hr 0 3 (by decide)).mp h) (by decide)
    have n30 : ¬f3.r = f0.r := fun h => n03 h.symm
    have n04 : ¬f0.r = f4.r := fun h => absurd ((hr 0 4 (by decide)).mp h) (by decide)
    have n40 : ¬f4.r = f0.r := fun h => n04 h.symm
    have n12 : ¬f1.r = f2.r := fun h => absurd ((hr 1 2 (by decide)).mp h) (by decide)
    have n21 : ¬f2.r = f1.r := fun h => n12 h.symm
    have n13 : ¬f1.r = f3.r := fun h => absurd ((hr 1 3 (by decide)).mp h) (by decide)
    have n31 : ¬f3.r = f1.r := fun h => n13 h.symm
    have n14 : ¬f1.r = f4.r := fun h => absurd ((hr 1 4 (by decide)).mp h) (by decide)
    have n41 : ¬f4.r = f1.r := fun h => n14 h.symm
    have n23 : ¬f2.r = f3.r := fun h => absurd ((hr 2 3 (by decide)).mp h) (by decide)
    have n32 : ¬f3.r = f2.r := fun h => n23 h.symm
    have n34 : ¬f3.r = f4.r := fun h => absurd ((hr 3 4 (by decide)).mp h) (by decide)
    have n43 : ¬f4.r = f3.r := fun h => n34 h.symm
    simp [detect_nonce_reuse, groupByR, insertByR, allPairs, hp, n01, n10, n02, n20, n03, n30, n04, n40, n12, n21, n13, n31, n14, n41, n23, n32, n34, n43]
  · exact absurd hij (by decide)
  · exact absurd hij (by decide)
  · exact absurd hij (by decide)
  · exact absurd hij (by decide)
  · show detect_nonce_reuse [f0, f1, f2, f3, f4] = [(f3, f4)]
    have hp : f3.r = f4.r := (hr 3 4 (by decide)).mpr (by decide)
    have n01 : ¬f0.r = f1.r := fun h => absurd ((hr 0 1 (by decide)).mp h) (by decide)
    have n10 : ¬f1.r = f0.r := fun h => n01 h.symm
    have n02 : ¬f0.r = f2.r := fun h => absurd ((hr 0 2 (by decide)).mp h) (by decide)
    have n20 : ¬f2.r = f0.r := fun h => n02 h.symm
    have n03 : ¬f0.r = f3.r := fun h => absurd ((hr 0 3 (by decide)).mp h) (by decide)
    have n30 : ¬f3.r = f0.r := fun h => n03 h.symm
    have n04 : ¬f0.r = f4.r := fun h => absurd ((hr 0 4 (by decide)).mp h) (by decide)
    have n40 : ¬f4.r = f0.r := fun h => n04 h.symm
    have n12 : ¬f1.r = f2.r := fun h => absurd ((hr 1 2 (by decide)).mp h) (by decide)
    have n21 : ¬f2.r = f1.r := fun h => n12 h.symm
    have n13 : ¬f1.r = f3.r := fun h => absurd ((hr 1 3 (by decide)).mp h) (by decide)
    have n31 : ¬f3.r = f1.r := fun h => n13 h.symm
    have n14 : ¬f1.r = f4.r := fun h => absurd ((hr 1 4 (by decide)).mp h) (by decide)
    have n41 : ¬f4.r = f1.r := fun h => n14 h.symm
    have n23 : ¬f2.r = f3.r := fun h => absurd ((hr 2 3 (by decide)).mp h) (by decide)
    have n32 : ¬f3.r = f2.r := fun h => n23 h.symm
    have n24 : ¬f2.r = f4.r := fun h => absurd ((hr 2 4 (by decide)).mp h) (by decide)
    have n42 : ¬f4.r = f2.r := fun h => n24 h.symm
    simp [detect_nonce_reuse, groupByR, insertByR, allPairs, hp, n01, n10, n02, n20, n03, n30, n04, n40, n12, n21, n13, n31, n14, n41, n23, n32, n24, n42]
  · exact absurd hij (by decide)
  · exact absurd hij (by decide)
  · exact absurd hij (by decide)
  · exact absurd hij (by decide)
  · exact absurd hij (by decide)

theorem C8_witness :
    ((0 : Fin 5) < (3 : Fin 5)) ∧
    detect_nonce_reuse
        [(⟨10, 0, 1, 0⟩ : Firmware), ⟨11, 0, 2, 0⟩, ⟨12, 0, 3, 0⟩, ⟨13, 0, 1, 0⟩, ⟨14, 0, 4, 0⟩]
      = [(![(⟨10, 0, 1, 0⟩ : Firmware), ⟨11, 0, 2, 0⟩, ⟨12, 0, 3, 0⟩, ⟨13, 0, 1, 0⟩,
          ⟨14, 0, 4, 0⟩] (0 : Fin 5),
        ![(⟨10, 0, 1, 0⟩ : Firmware), ⟨11, 0, 2, 0⟩, ⟨12, 0, 3, 0⟩, ⟨13, 0, 1, 0⟩,
          ⟨14, 0, 4, 0⟩] (3 : Fin 5))] :=
  ⟨by decide,
    C8_detect_exactly_one_pair ⟨10, 0, 1, 0⟩ ⟨11, 0, 2, 0⟩ ⟨12, 0, 3, 0⟩ ⟨13, 0, 1, 0⟩
      ⟨14, 0, 4, 0⟩ 0 3 (by decide) (by decide)⟩

end attack

namespace ec_utils

theorem is_on_curve_slope_point {x₁ y₁ x₂ y₂ lam : ℤ}
    (he₁ : W.Equation (x₁ : ZMod Pnat) (y₁ : ZMod Pnat))
    (he₂ : W.Equation (x₂ : ZMod Pnat) (y₂ : ZMod Pnat))
    (hxy : (x₁ : ZMod Pnat) = (x₂ : ZMod Pnat) →
      (y₁ : ZMod Pnat) ≠ W.negY (x₂ : ZMod Pnat) (y₂ : ZMod Pnat))
    (hlam : (lam : ZMod Pnat)
      = W.slope (x₁ : ZMod Pnat) (x₂ : ZMod Pnat) (y₁ : ZMod Pnat) (y₂ : ZMod Pnat)) :
    (Point.finite ((lam * lam - x₁ - x₂) % P)
      ((lam * (x₁ - (lam * lam - x₁ - x₂) % P) - y₁) % P)).is_on_curve = true := by
  rw [is_on_curve_iff]
  have hx₃c : (((lam * lam - x₁ - x₂) % P : ℤ) : ZMod Pnat)
      = W.addX (x₁ : ZMod Pnat) (x₂ : ZMod Pnat)
          (W.slope (x₁ : ZMod Pnat) (x₂ : ZMod Pnat) (y₁ : ZMod Pnat) (y₂ : ZMod Pnat)) := by
    rw [cast_emod_P]
    push_cast
    rw [hlam]
    simp only [WeierstrassCurve.Affine.addX, W]
    ring
  have hy₃c : (((lam * (x₁ - (lam * lam - x₁ - x₂) % P) - y₁) % P : ℤ) : ZMod Pnat)
      = W.addY (x₁ : ZMod Pnat) (x₂ : ZMod Pnat) (y₁ : ZMod Pnat)
          (W.slope (x₁ : ZMod Pnat) (x₂ : ZMod Pnat) (y₁ : ZMod Pnat) (y₂ : ZMod Pnat)) := by
    rw [cast_emod_P]
    push_cast
    rw [hlam, hx₃c]
    simp only [WeierstrassCurve.Affine.addY, WeierstrassCurve.Affine.negAddY,
      WeierstrassCurve.Affine.negY, W]
    ring
  rw [hx₃c, hy₃c]
  exact WeierstrassCurve.Affine.equation_add he₁ he₂ hxy

/-- C10: curve-membership closure.  For any two points satisfying
`is_on_curve` (the identity included), if `point_add` returns a point without
raising, that point satisfies `is_on_curve` as well. -/
theorem C10_point_add_preserves_curve (P1 P2 P3 : Point)
    (h₁ : P1.is_on_curve = true) (h₂ : P2.is_on_curve = true)
    (h : point_add P1 P2 = .ok P3) : P3.is_on_curve = true := by
  cases P1 with
  | infinity =>
    have h' : (Except.ok P2 : Except String Point) = Except.ok P3 := by
      rw [← h]
      cases P2 <;> rfl
    injection h' with h'
    rw [← h']
    exact h₂
  | finite x₁ y₁ =>
    cases P2 with
    | infinity =>
      have h' : (Except.ok (Point.finite x₁ y₁) : Except String Point) = Except.ok P3 := by
        rw [← h]
        simp [point_add]
      injection h' with h'
      rw [← h']
      exact h₁
    | finite x₂ y₂ =>
      have he₁ : W.Equation (x₁ : ZMod Pnat) (y₁ : ZMod Pnat) := (is_on_curve_iff x₁ y₁).mp h₁
      have he₂ : W.Equation (x₂ : ZMod Pnat) (y₂ : ZMod Pnat) := (is_on_curve_iff x₂ y₂).mp h₂
      by_cases hopp : x₁ = x₂ ∧ y₁ ≠ y₂
      · rw [point_add_opp hopp.1 hopp.2] at h
        injection h with h
        rw [← h]
        rfl
      · rw [point_add_finite_eq hopp] at h
        rcases hmi : mod_inverse (if x₁ = x₂ ∧ y₁ = y₂ then (2 * y₁) % P else (x₂ - x₁) % P) P
          with msg | inv
        · rw [hmi, except_error_bind] at h
          exact absurd h (by simp)
        · rw [hmi, except_ok_bind] at h
          dsimp only at h
          injection h with h
          rw [← h]
          have hinvmul := mod_inverse_P_mul hmi
          have hden_ne : ((if x₁ = x₂ ∧ y₁ = y₂ then (2 * y₁) % P else (x₂ - x₁) % P : ℤ)
              : ZMod Pnat) ≠ 0 := left_ne_zero_of_mul_eq_one hinvmul
          by_cases hdbl : x₁ = x₂ ∧ y₁ = y₂
          · obtain ⟨hx, hy⟩ := hdbl
            subst hx
            subst hy
            simp only [eq_self_iff_true, and_self, if_true] at hinvmul hden_ne ⊢
            rw [cast_emod_P] at hden_ne
            push_cast at hden_ne
            have hYnegY : (y₁ : ZMod Pnat) ≠ W.negY (x₁ : ZMod Pnat) (y₁ : ZMod Pnat) := by
              rw [negY_eq]
              intro hyy
              exact hden_ne (by linear_combination hyy)
            apply is_on_curve_slope_point he₁ he₂ (fun _ => hYnegY)
            rw [cast_lam hinvmul, cast_emod_P, WeierstrassCurve.Affine.slope_of_Y_ne rfl hYnegY,
              negY_eq]
            simp only [W]
            rw [div_eq_mul_inv]
            push_cast
            ring_nf
          · simp only [if_neg hdbl] at hinvmul hden_ne ⊢
            rw [cast_emod_P] at hden_ne
            push_cast at hden_ne
            have hXne : (x₁ : ZMod Pnat) ≠ (x₂ : ZMod Pnat) := by
              intro hxx
              exact hden_ne (by linear_combination -hxx)
            apply is_on_curve_slope_point he₁ he₂ (fun hxx => absurd hxx hXne)
            rw [cast_lam hinvmul, cast_emod_P, WeierstrassCurve.Affine.slope_of_X_ne hXne,
              div_eq_mul_inv,
              show ((x₁ : ZMod Pnat) - (x₂ : ZMod Pnat)) = -((x₂ : ZMod Pnat) - (x₁ : ZMod Pnat))
                from by ring, inv_neg]
            push_cast
            ring

theorem C10_witness :
    G.is_on_curve = true ∧ G.is_on_curve = true ∧
    point_add G G
      = .ok (.finite 0xC685FAFE1669782D14BB8282184D9F2A27B21106
          0x438D5C5DE90CEAC2207F303B1408396DA99063B1) ∧
    (Point.finite 0xC685FAFE1669782D14BB8282184D9F2A27B21106
        0x438D5C5DE90CEAC2207F303B1408396DA99063B1).is_on_curve = true :=
  ⟨by decide, by decide, by decide,
    C10_point_add_preserves_curve G G
      (.finite 0xC685FAFE1669782D14BB8282184D9F2A27B21106
        0x438D5C5DE90CEAC2207F303B1408396DA99063B1)
      (by decide) (by decide) (by decide)⟩

end ec_utils

namespace attack

open ec_utils

theorem smul_Gq_mem {q : W.Point} (n : ℕ) (h : q ∈ AddSubgroup.zmultiples Gq) :
    n • q ∈ AddSubgroup.zmultiples Gq :=
  AddSubgroup.nsmul_mem _ h n

theorem toNat_smul_eq {u : ℤ} (hu : 0 ≤ u) (q : W.Point) : u.toNat • q = u • q := by
  rw [← natCast_zsmul, Int.toNat_of_nonneg hu]

/-- C2: the sign/verify round trip.  If `sign_message` succeeds on digest `e`
with private key `d ∈ [1, N-1]` and (randomly drawn) nonce `k ∈ [1, N-1]`,
then verifying the produced `(r, s)` against the public key
`point_multiply d G` succeeds and returns `True`. -/
theorem C2_sign_verify_roundtrip (e d k r s kout : ℤ)
    (hd1 : 1 ≤ d) (hd2 : d < N) (hk1 : 1 ≤ k) (hk2 : k < N)
    (hsig : sign_message e d k = .ok (r, s, kout)) :
    ∃ Q, point_multiply d G = .ok Q ∧ verify_signature e r s Q = .ok true := by
  obtain ⟨Rx, Ry, kinv, hpm, hmi, hr, hrne, hs, hsne, -⟩ := sign_message_ok_inv hsig
  have hr0 : 0 ≤ r := by
    have := Int.emod_nonneg Rx N_ne_zero
    omega
  have hrN : r < N := by
    have := Int.emod_lt_of_pos Rx N_pos
    omega
  have hs0 : 0 ≤ s := by
    have := Int.emod_nonneg (kinv * (e + d * r)) N_ne_zero
    omega
  have hsN : s < N := by
    have := Int.emod_lt_of_pos (kinv * (e + d * r)) N_pos
    omega
  obtain ⟨Q, hQ, hrepQ⟩ := point_multiply_ok d (by omega) rep_G (AddSubgroup.mem_zmultiples Gq)
  refine ⟨Q, hQ, ?_⟩
  have hsF : ((s : ℤ) : ZMod Nnat) ≠ 0 := cast_ne_zero_of_range_N (by omega) hsN
  obtain ⟨s_inv, hsi, hsmul⟩ := mod_inverse_N_ok hsF
  set u1 : ℤ := e * s_inv % N with hu1def
  set u2 : ℤ := r * s_inv % N with hu2def
  have hu10 : 0 ≤ u1 := Int.emod_nonneg _ N_ne_zero
  have hu20 : 0 ≤ u2 := Int.emod_nonneg _ N_ne_zero
  have hmemQ : d.toNat • Gq ∈ AddSubgroup.zmultiples Gq :=
    smul_Gq_mem d.toNat (AddSubgroup.mem_zmultiples Gq)
  obtain ⟨R1, hR1, hrep1⟩ := point_multiply_ok u1 hu10 rep_G (AddSubgroup.mem_zmultiples Gq)
  obtain ⟨R2, hR2, hrep2⟩ := point_multiply_ok u2 hu20 hrepQ hmemQ
  have hmem1 : u1.toNat • Gq ∈ AddSubgroup.zmultiples Gq :=
    smul_Gq_mem u1.toNat (AddSubgroup.mem_zmultiples Gq)
  have hmem2 : u2.toNat • d.toNat • Gq ∈ AddSubgroup.zmultiples Gq :=
    smul_Gq_mem u2.toNat hmemQ
  obtain ⟨R', hadd, hrep'⟩ := point_add_ok hrep1 hrep2
    (fun _ hz => no_two_torsion _ hmem1 hz)
  -- the abstract point computed by verification is k • Gq
  have hk_inv : (k : ZMod Nnat) * (kinv : ZMod Nnat) = 1 := mod_inverse_N_mul hmi
  have hsF' : ((s : ℤ) : ZMod Nnat)
      = (kinv : ZMod Nnat) * ((e : ZMod Nnat) + (d : ZMod Nnat) * (r : ZMod Nnat)) := by
    rw [hs, cast_emod_N]
    push_cast
    ring
  have hu1F : ((u1 : ℤ) : ZMod Nnat) = (e : ZMod Nnat) * (s_inv : ZMod Nnat) := by
    rw [hu1def, cast_emod_N]
    push_cast
    ring
  have hu2F : ((u2 : ℤ) : ZMod Nnat) = (r : ZMod Nnat) * (s_inv : ZMod Nnat) := by
    rw [hu2def, cast_emod_N]
    push_cast
    ring
  have hcong : ((u1 + u2 * d : ℤ) : ZMod Nnat) = ((k : ℤ) : ZMod Nnat) := by
    have hmul : ((u1 + u2 * d : ℤ) : ZMod Nnat) * ((s : ℤ) : ZMod Nnat)
        = ((k : ℤ) : ZMod Nnat) * ((s : ℤ) : ZMod Nnat) := by
      push_cast
      rw [hu1F, hu2F]
      calc ((e : ZMod Nnat) * s_inv + (r : ZMod Nnat) * s_inv * (d : ZMod Nnat))
            * ((s : ℤ) : ZMod Nnat)
          = ((e : ZMod Nnat) + (d : ZMod Nnat) * (r : ZMod Nnat))
            * (((s : ℤ) : ZMod Nnat) * (s_inv : ZMod Nnat)) := by ring
        _ = (e : ZMod Nnat) + (d : ZMod Nnat) * (r : ZMod Nnat) := by rw [hsmul, mul_one]
        _ = ((k : ZMod Nnat) * (kinv : ZMod Nnat))
            * ((e : ZMod Nnat) + (d : ZMod Nnat) * (r : ZMod Nnat)) := by
              rw [hk_inv, one_mul]
        _ = ((k : ℤ) : ZMod Nnat) * ((s : ℤ) : ZMod Nnat) := by
              rw [hsF']
              ring
    exact mul_right_cancel₀ hsF hmul
  have hsmulq : u1.toNat • Gq + u2.toNat • d.toNat • Gq = k • Gq := by
    rw [toNat_smul_eq hu10, toNat_smul_eq hu20, toNat_smul_eq (by omega : (0:ℤ) ≤ d),
      ← mul_zsmul, ← add_zsmul]
    have hdvd : (N : ℤ) ∣ (u1 + u2 * d) - k := by
      have hmodeq := (ZMod.intCast_eq_intCast_iff (u1 + u2 * d) k Nnat).mp hcong
      rw [Nnat_cast] at hmodeq
      have h1 := Int.ModEq.dvd hmodeq
      have h2 := dvd_neg.mpr h1
      rwa [neg_sub] at h2
    have hz : ((u1 + u2 * d) - k) • Gq = 0 := (zsmul_Gq_eq_zero_iff _).mpr hdvd
    rw [sub_zsmul] at hz
    exact sub_eq_zero.mp hz
  rw [hsmulq] at hrep'
  have hrepR : Represents (.finite Rx Ry) (k • Gq) := by
    have h0 := point_multiply_rep_of_ok (by omega : (0 : ℤ) ≤ k) rep_G hpm
    rwa [toNat_smul_eq (by omega : (0 : ℤ) ≤ k)] at h0
  have hReq : R' = .finite Rx Ry := Represents.inj hrep' hrepR
  have hrange : 1 ≤ r ∧ r < N ∧ 1 ≤ s ∧ s < N := ⟨by omega, hrN, by omega, hsN⟩
  simp only [verify_signature]
  rw [if_pos hrange, hsi, except_ok_seq]
  rw [← hu1def, ← hu2def, hR1, except_ok_seq]
  rw [hR2, except_ok_seq]
  rw [hadd, except_ok_seq]
  rw [hReq]
  dsimp only
  rw [← hr, Int.emod_eq_of_lt hr0 hrN]
  simp

theorem C2_witness :
    (1 ≤ (1 : ℤ)) ∧ ((1 : ℤ) < ec_utils.N) ∧
    sign_message 1 1 1
      = .ok (0x128EC4256487FD8FDF64E2437BC0A1F6D5AFDE2C,
          0x128EC4256487FD8FDF64E2437BC0A1F6D5AFDE2D, 1) ∧
    ∃ Q, ec_utils.point_multiply 1 ec_utils.G = .ok Q ∧
      verify_signature 1 0x128EC4256487FD8FDF64E2437BC0A1F6D5AFDE2C
        0x128EC4256487FD8FDF64E2437BC0A1F6D5AFDE2D Q = .ok true :=
  ⟨by decide, by decide, by decide,
    C2_sign_verify_roundtrip 1 1 1
      0x128EC4256487FD8FDF64E2437BC0A1F6D5AFDE2C 0x128EC4256487FD8FDF64E2437BC0A1F6D5AFDE2D 1
      (by decide) (by decide) (by decide) (by decide) (by decide)⟩

end attack
